import Mathlib

/-!
# Verification of the xorcist commit-graph sequencing and lane-layout engine

Shallow embedding of `reorder_entries_for_graph` (src/jj/log.rs) and
`build_graph_rows` (src/graph.rs), together with proofs of the testable
properties of the specification.
-/

set_option maxRecDepth 20000

namespace Xorcist

/-- Commit record from `jj log` (src/jj/log.rs, `LogEntry`).  The four
shortest-unique-id presentation fields of the source struct (the split
change-id/commit-id pieces) are never read by `reorder_entries_for_graph`,
`build_graph_rows` or `graph_symbol` and are not modelled; every modelled
field keeps its source name.  Fields not relevant to a concrete test input
default to empty values. -/
structure LogEntry where
  change_id : String := ""
  commit_id : String := ""
  commit_id_full : String := ""
  parent_commit_ids : List String := []
  author : String := ""
  timestamp : String := ""
  description : String := ""
  is_working_copy : Bool := false
  is_immutable : Bool := false
  is_empty : Bool := false
  bookmarks : List String := []
deriving Repr, DecidableEq

instance : Inhabited LogEntry := ⟨{}⟩

/-- `LogEntry::graph_symbol` (src/jj/log.rs:51): node glyph for this entry. -/
def LogEntry.graph_symbol (e : LogEntry) : String :=
  if e.is_working_copy then "@" else if e.is_immutable then "◆" else "○"

/-- `entry.graph_symbol().chars().next().unwrap_or('○')` (src/graph.rs:163). -/
def LogEntry.graphSymbolChar (e : LogEntry) : Char :=
  (e.graph_symbol).toList.headD '○'

/-- Priority key for the topological sort (src/jj/log.rs, `SortPriority`). -/
structure SortPriority where
  is_working_copy : Bool
  neg_original_idx : Int
deriving Repr, DecidableEq

/-- Strict order given by `Ord for SortPriority` (src/jj/log.rs:140):
lexicographic on `(is_working_copy, neg_original_idx)`, with `false < true`
on `bool`. -/
def SortPriority.lt (a b : SortPriority) : Prop :=
  (a.is_working_copy = false ∧ b.is_working_copy = true) ∨
  (a.is_working_copy = b.is_working_copy ∧ a.neg_original_idx < b.neg_original_idx)

instance (a b : SortPriority) : Decidable (a.lt b) :=
  inferInstanceAs (Decidable (_ ∨ _))

/-- Strict order on heap elements `(SortPriority, usize)`: the derived tuple
`Ord` compares the priority first and the index second. -/
def heapLt (a b : SortPriority × Nat) : Prop :=
  a.1.lt b.1 ∨ (a.1 = b.1 ∧ a.2 < b.2)

instance (a b : SortPriority × Nat) : Decidable (heapLt a b) :=
  inferInstanceAs (Decidable (_ ∨ _))

/-- Model of `BinaryHeap::pop`: removes a maximal element w.r.t. `heapLt`
(the element keys in a reachable heap are pairwise distinct, so which
maximal element Rust's heap returns is uniquely determined). -/
def popMax : List (SortPriority × Nat) →
    Option ((SortPriority × Nat) × List (SortPriority × Nat))
  | [] => none
  | x :: xs =>
    match popMax xs with
    | none => some (x, [])
    | some (m, rest) => if heapLt x m then some (m, x :: rest) else some (x, xs)

/-- The `id_to_idx` map (src/jj/log.rs:172): `commit_id_full → index`,
built by inserting in enumeration order, so for duplicate ids the last
index wins. -/
def idToIdx (es : List LogEntry) (s : String) : Option Nat :=
  (List.range es.length).foldl
    (fun acc i => if (es.getD i default).commit_id_full = s then some i else acc)
    none

/-- One `child_count[parent_idx] += 1` step, guarded by the map lookup
(src/jj/log.rs:184-188). -/
def bumpParent (es : List LogEntry) (counts : List Nat) (p : String) : List Nat :=
  match idToIdx es p with
  | some j => counts.set j (counts.getD j 0 + 1)
  | none => counts

/-- The `child_count` table built by the double loop over entries and their
parent ids (src/jj/log.rs:182-189). -/
def initCounts (es : List LogEntry) : List Nat :=
  es.foldl (fun counts e => e.parent_commit_ids.foldl (bumpParent es) counts)
    (List.replicate es.length 0)

/-- The priority pushed for index `j` (src/jj/log.rs:199,226). -/
def mkPrio (wc : List Bool) (j : Nat) : SortPriority :=
  { is_working_copy := wc.getD j false, neg_original_idx := -(j : Int) }

/-- Initial heap seeding: every index with child count zero is pushed
(src/jj/log.rs:196-205). -/
def initHeap (wc : List Bool) (counts : List Nat) : List (SortPriority × Nat) :=
  (List.range counts.length).foldl
    (fun h idx => if counts.getD idx 0 = 0 then (mkPrio wc idx, idx) :: h else h) []

/-- The parent-decrement loop run after emitting one entry
(src/jj/log.rs:220-233): for each parent id that resolves in the batch and
has positive remaining child count, decrement it, and push the parent when
its count reaches zero and it was not emitted.  `E` is the emitted set
(already including the entry being processed, as in the source). -/
def processParents (es : List LogEntry) (wc : List Bool) (E : List Nat) :
    List String → List Nat × List (SortPriority × Nat) →
    List Nat × List (SortPriority × Nat)
  | [], st => st
  | p :: ps, (counts, heap) =>
    match idToIdx es p with
    | none => processParents es wc E ps (counts, heap)
    | some j =>
      if 0 < counts.getD j 0 then
        let c' := counts.set j (counts.getD j 0 - 1)
        if c'.getD j 0 = 0 ∧ j ∉ E then
          processParents es wc E ps (c', (mkPrio wc j, j) :: heap)
        else
          processParents es wc E ps (c', heap)
      else processParents es wc E ps (counts, heap)

/-- State of Kahn's loop (src/jj/log.rs:207-236).  `emitted` doubles as the
`emitted` hash set and the order of emission; `panicked` records whether the
`entries_opt[idx].take().unwrap()` panic path was ever reachable. -/
structure RState where
  counts : List Nat
  heap : List (SortPriority × Nat)
  emitted : List Nat
  entriesOpt : List (Option LogEntry)
  result : List LogEntry
  panicked : Bool
deriving Repr

/-- Successor state after emitting the entry at `idx` (src/jj/log.rs:215-235):
insert into the emitted set, take the entry out of `entries_opt`, run the
parent-decrement loop (with `idx` already emitted, as in the source), and
append the entry to the result. -/
def emitState (es : List LogEntry) (wc : List Bool) (st : RState) (idx : Nat)
    (rest : List (SortPriority × Nat)) (e : LogEntry) : RState :=
  let emitted' := st.emitted ++ [idx]
  let ch := processParents es wc emitted' e.parent_commit_ids (st.counts, rest)
  { counts := ch.1, heap := ch.2, emitted := emitted',
    entriesOpt := st.entriesOpt.set idx none,
    result := st.result ++ [e], panicked := st.panicked }

/-- One fuel-indexed run of the `while let Some((_, idx)) = heap.pop()` loop
(src/jj/log.rs:211-236).  The fuel given by `runReorder` is proved
sufficient to drain the heap. -/
def stepFuel (es : List LogEntry) (wc : List Bool) : Nat → RState → RState
  | 0, st => st
  | fuel + 1, st =>
    match popMax st.heap with
    | none => st
    | some ((_, idx), rest) =>
      if idx ∈ st.emitted then stepFuel es wc fuel { st with heap := rest }
      else
        match st.entriesOpt.getD idx none with
        | none => stepFuel es wc fuel { st with heap := rest, panicked := true }
        | some e => stepFuel es wc fuel (emitState es wc st idx rest e)

/-- Initial loop state (src/jj/log.rs:182-209). -/
def initState (es : List LogEntry) : RState :=
  let counts := initCounts es
  { counts := counts
    heap := initHeap (es.map (·.is_working_copy)) counts
    emitted := []
    entriesOpt := es.map some
    result := []
    panicked := false }

/-- Full run of the priority traversal; the fuel `counts.sum + heap.length`
strictly bounds the number of loop iterations. -/
def runReorder (es : List LogEntry) : RState :=
  stepFuel es (es.map (·.is_working_copy)) ((initState es).counts.sum + (initState es).heap.length)
    (initState es)

/-- `reorder_entries_for_graph` (src/jj/log.rs:164-244): priority
topological sort with the leftover entries appended in original order. -/
def reorder_entries_for_graph (entries : List LogEntry) : List LogEntry :=
  if entries.length ≤ 1 then entries
  else (runReorder entries).result ++ (runReorder entries).entriesOpt.filterMap id

/-! ## Lane layout engine (src/graph.rs) -/

/-- Cell tag (src/graph.rs, `CellKind`). -/
inductive CellKind where
  | Lane (lane : Nat)
  | Node (is_working_copy : Bool) (is_immutable : Bool)
deriving Repr, DecidableEq

/-- Two-character graph cell (src/graph.rs, `Cell2`). -/
structure Cell2 where
  left : Char
  right : Char
  kind_left : CellKind
  kind_right : CellKind
deriving Repr, DecidableEq

/-- `Cell2::lane` (src/graph.rs:31). -/
def Cell2.lane (lane : Nat) (left right : Char) : Cell2 :=
  { left := left, right := right, kind_left := .Lane lane, kind_right := .Lane lane }

instance : Inhabited Cell2 := ⟨Cell2.lane 0 ' ' ' '⟩

/-- One output row (src/graph.rs, `GraphRow`). -/
structure GraphRow where
  cells : List Cell2
  node_lane : Nat
  active_lane_count : Nat
deriving Repr, DecidableEq

instance : Inhabited GraphRow := ⟨{ cells := [], node_lane := 0, active_lane_count := 0 }⟩

/-- `idx_of.contains_key(p)` (src/graph.rs:92): whether a parent id belongs
to the current batch. -/
def inBatch (es : List LogEntry) (p : String) : Bool :=
  es.any (fun e => e.commit_id_full = p)

/-- `iter().position(|x| x == cid)` (src/graph.rs:68): index of the first
occurrence. -/
def lanePos (cid : String) : List String → Option Nat
  | [] => none
  | x :: xs => if x = cid then some 0 else (lanePos cid xs).map (· + 1)

/-- Step 1 (src/graph.rs:68-73): locate the commit's lane, or insert it at
lane 0.  Returns the (possibly extended) lane table and `node_lane`. -/
def locateLane (lanes : List String) (cid : String) : List String × Nat :=
  match lanePos cid lanes with
  | some p => (lanes, p)
  | none => (cid :: lanes, 0)

/-- Step 3 (src/graph.rs:80-84): duplicate occurrences of the commit id
strictly to the right of `node_lane`. -/
def dupLanes (lanes : List String) (node_lane : Nat) (cid : String) : List Nat :=
  (List.range lanes.length).filter
    (fun i => decide (node_lane < i) && decide (lanes.getD i "" = cid))

/-- Sequential `Vec::insert` of merge parents at `node_lane + 1 + k`
(src/graph.rs:106-108); each position is within bounds in every call made
by `graphStep`, so the take/drop splice is exact. -/
def insertParents (pos : Nat) : List String → List String → List String
  | [], lanes => lanes
  | p :: rest, lanes => insertParents (pos + 1) rest (lanes.take pos ++ p :: lanes.drop pos)

/-- Step 5 (src/graph.rs:103-115): overwrite the node lane with the primary
parent and insert the other parents after it, or terminate the lane when no
parent is in the batch (with the source's bounds guard). -/
def updateLanesForParents (node_lane : Nat) (parents : List String)
    (lanes : List String) : List String :=
  match parents with
  | primary :: others => insertParents (node_lane + 1) others (lanes.set node_lane primary)
  | [] => if node_lane < lanes.length then lanes.eraseIdx node_lane else lanes

/-- Insertion into a `≤`-sorted list, to model `sort_unstable`. -/
def insertSorted (x : Nat) : List Nat → List Nat
  | [] => [x]
  | y :: ys => if x ≤ y then x :: y :: ys else y :: insertSorted x ys

/-- `sort_unstable` (src/graph.rs:123) as insertion sort. -/
def sortNat (l : List Nat) : List Nat := l.foldr insertSorted []

/-- Step 6 (src/graph.rs:126-130): remove the converged duplicates from the
lane table right-to-left, each removal guarded by a bounds check. -/
def removeConverged (endpoints : List Nat) (lanes : List String) : List String :=
  endpoints.reverse.foldl
    (fun l idx => if idx < l.length then l.eraseIdx idx else l) lanes

/-- Step 8 initialisation (src/graph.rs:151-160): one lane cell per column,
with a vertical continuation on the left half for lanes that existed at
render time. -/
def initCells (lane_count render_count : Nat) : List Cell2 :=
  (List.range lane_count).map
    (fun lane => Cell2.lane lane (if lane < render_count then '│' else ' ') ' ')

/-- Node placement (src/graph.rs:163-170): overwrite the node lane's left
half with the node glyph and tag it as a `Node` cell. -/
def placeNode (cells : List Cell2) (node_lane : Nat) (e : LogEntry) : List Cell2 :=
  if node_lane < cells.length then
    cells.set node_lane
      { cells.getD node_lane default with
        left := e.graphSymbolChar
        kind_left := CellKind.Node e.is_working_copy e.is_immutable }
  else cells

/-- Horizontal connection drawing (src/graph.rs:183-199): the node cell's
right half becomes a horizontal line and every lane up to the furthest
endpoint is crossed or overdrawn.  The source's `break` at an
out-of-bounds lane is modelled by the per-lane bounds guard (the lane
index increases, so skipping and breaking agree). -/
def drawHorizontal (cells0 : List Cell2) (node_lane target render_count : Nat) :
    List Cell2 :=
  (List.range' (node_lane + 1) (target - node_lane)).foldl
    (fun cs lane =>
      if lane < cs.length then
        cs.set lane
          { cs.getD lane default with
            left := if lane < render_count then '┼' else '─'
            right := if lane = target then ' ' else '─' }
      else cs)
    (if node_lane < cells0.length then
      cells0.set node_lane { cells0.getD node_lane default with right := '─' }
    else cells0)

/-- Endpoint corner overrides (src/graph.rs:202-211). -/
def markCorners (ch : Char) (endpoints : List Nat) (cells : List Cell2) : List Cell2 :=
  endpoints.foldl
    (fun cs lane =>
      if lane < cs.length then
        cs.set lane { cs.getD lane default with left := ch }
      else cs) cells

/-- Step 1 result, named: the lane table after the node-lane insert. -/
def lanes1Of (lanes0 : List String) (cid : String) : List String :=
  (locateLane lanes0 cid).1

/-- Step 1 result, named: the node lane. -/
def nodeLaneOf (lanes0 : List String) (cid : String) : Nat :=
  (locateLane lanes0 cid).2

/-- Step 4 (src/graph.rs:88-93): parents present in the batch, order kept. -/
def parentsOf (es : List LogEntry) (entry : LogEntry) : List String :=
  entry.parent_commit_ids.filter (inBatch es)

/-- `split_count` (src/graph.rs:97-101): number of extra merge-parent lanes
(zero when there is no primary parent). -/
def splitCountOf (es : List LogEntry) (entry : LogEntry) : Nat :=
  match parentsOf es entry with
  | [] => 0
  | _ :: others => others.length

/-- Step 3 result, named: duplicate lanes right of the node lane. -/
def dupsOf (lanes0 : List String) (cid : String) : List Nat :=
  dupLanes (lanes1Of lanes0 cid) (nodeLaneOf lanes0 cid) cid

/-- Step 6 (src/graph.rs:119-123): convergence endpoints — the duplicate
positions, shifted right by the number of inserted lanes, sorted. -/
def convergeOf (es : List LogEntry) (lanes0 : List String) (entry : LogEntry) : List Nat :=
  sortNat ((dupsOf lanes0 entry.commit_id_full).map (· + splitCountOf es entry))

/-- Step 5 result, named: the lane table after the parent update. -/
def lanes2Of (es : List LogEntry) (lanes0 : List String) (entry : LogEntry) : List String :=
  updateLanesForParents (nodeLaneOf lanes0 entry.commit_id_full) (parentsOf es entry)
    (lanes1Of lanes0 entry.commit_id_full)

/-- Step 6 result, named: the lane table after removing converged lanes. -/
def lanes3Of (es : List LogEntry) (lanes0 : List String) (entry : LogEntry) : List String :=
  removeConverged (convergeOf es lanes0 entry) (lanes2Of es lanes0 entry)

/-- The split endpoints `(node_lane + 1..=node_lane + split_count)`
(src/graph.rs:135-139). -/
def splitEndpointsOf (es : List LogEntry) (lanes0 : List String) (entry : LogEntry) :
    List Nat :=
  if splitCountOf es entry = 0 then []
  else List.range' (nodeLaneOf lanes0 entry.commit_id_full + 1) (splitCountOf es entry)

/-- One `if let Some(m) = eps.iter().max() { lc = lc.max(m + 1) }` step
(src/graph.rs:142-147). -/
def maxEndpoint (lc : Nat) (eps : List Nat) : Nat :=
  match eps.max? with
  | some m => max lc (m + 1)
  | none => lc

/-- Step 7 (src/graph.rs:141-147): the row's column count. -/
def laneCountOf (es : List LogEntry) (lanes0 : List String) (entry : LogEntry) : Nat :=
  maxEndpoint
    (maxEndpoint
      (max (lanes3Of es lanes0 entry).length (nodeLaneOf lanes0 entry.commit_id_full + 1))
      (splitEndpointsOf es lanes0 entry))
    (convergeOf es lanes0 entry)

/-- Step 8 (src/graph.rs:149-212): build the cell row from the computed
endpoint data. -/
def buildCells (entry : LogEntry) (node_lane render_count lane_count : Nat)
    (split_endpoints converge : List Nat) : List Cell2 :=
  match (split_endpoints ++ converge).max? with
  | some target =>
    if node_lane < target ∧
        node_lane < (placeNode (initCells lane_count render_count) node_lane entry).length then
      markCorners '┘' converge
        (markCorners '┐' split_endpoints
          (drawHorizontal (placeNode (initCells lane_count render_count) node_lane entry)
            node_lane target render_count))
    else placeNode (initCells lane_count render_count) node_lane entry
  | none => placeNode (initCells lane_count render_count) node_lane entry

/-- Per-record processing of `build_graph_rows` (src/graph.rs:64-219):
returns the mutated lane table and the emitted row, assembled from the
named step results above. -/
def graphStep (es : List LogEntry) (lanes0 : List String) (entry : LogEntry) :
    List String × GraphRow :=
  (lanes3Of es lanes0 entry,
   { cells := buildCells entry (nodeLaneOf lanes0 entry.commit_id_full)
        (lanes1Of lanes0 entry.commit_id_full).length (laneCountOf es lanes0 entry)
        (splitEndpointsOf es lanes0 entry) (convergeOf es lanes0 entry)
     node_lane := nodeLaneOf lanes0 entry.commit_id_full
     active_lane_count := (lanes3Of es lanes0 entry).length })

/-- The fold over entries of `build_graph_rows`, carrying the lane table. -/
def buildGraphAux (es : List LogEntry) : List String → List LogEntry → List GraphRow
  | _, [] => []
  | lanes, e :: rest =>
    (graphStep es lanes e).2 :: buildGraphAux es (graphStep es lanes e).1 rest

/-- `build_graph_rows` (src/graph.rs:55-222). -/
def build_graph_rows (entries : List LogEntry) : List GraphRow :=
  buildGraphAux entries [] entries

/-- The lane table produced by the per-record processing of a prefix of the
batch (exposed so that lane-table invariants can be stated). -/
def lanesAfter (es : List LogEntry) : List String → List LogEntry → List String
  | lanes, [] => lanes
  | lanes, e :: rest => lanesAfter es (graphStep es lanes e).1 rest

/-- Rust `str::trim_end` on the characters produced by a row (every
non-blank glyph used is not whitespace, so only `' '` is trimmed). -/
def trimEndChars (l : List Char) : List Char :=
  (l.reverse.dropWhile (fun c => c = ' ')).reverse

/-- `render_graph_row_plain` (src/graph.rs:225-232): concatenate each
cell's two characters and trim trailing blanks. -/
def render_graph_row_plain (row : GraphRow) : String :=
  String.mk (trimEndChars (row.cells.foldr (fun c acc => c.left :: c.right :: acc) []))

/-! ## Specification-side notions used by the theorems -/

/-- Multiplicity of child edges from entry `i` to index `j`: how many of
`es[i]`'s parent ids resolve (via `idToIdx`) to `j`. -/
def edgeTo (es : List LogEntry) (i j : Nat) : Nat :=
  (es.getD i default).parent_commit_ids.countP (fun p => decide (idToIdx es p = some j))

/-- Remaining in-batch child edges into `j` once the indices in `E` have
been emitted. -/
def remEdges (es : List LogEntry) (E : List Nat) (j : Nat) : Nat :=
  ∑ i in (Finset.range es.length).filter (fun i => i ∉ E), edgeTo es i j

/-- Entry at index `i` (the default entry when out of range). -/
def getE (es : List LogEntry) (i : Nat) : LogEntry := es.getD i default

/-- Emission order of the priority traversal. -/
def emittedOf (es : List LogEntry) : List Nat := (runReorder es).emitted

/-- Indices never emitted by the priority traversal, in original order. -/
def leftIdx (es : List LogEntry) : List Nat :=
  (List.range es.length).filter (fun i => decide (i ∉ (runReorder es).emitted))

/-- Output order of `reorder_entries_for_graph` as a list of input indices. -/
def permIdx (es : List LogEntry) : List Nat := emittedOf es ++ leftIdx es

/-- Loop invariant of the priority traversal: the child counts are exact
for the current emitted set, the heap holds exactly the ready unemitted
indices with their priorities, `entries_opt` and `result` mirror the
emitted list, the panic path is unreachable, and the emitted trace records
both the children-first property and the maximality of each choice. -/
structure Inv (es : List LogEntry) (st : RState) : Prop where
  counts_len : st.counts.length = es.length
  counts_eq : ∀ j < es.length, st.counts.getD j 0 = remEdges es st.emitted j
  heap_mem : ∀ pr ∈ st.heap, pr.2 < es.length ∧
      pr.1 = mkPrio (es.map (·.is_working_copy)) pr.2 ∧
      pr.2 ∉ st.emitted ∧ remEdges es st.emitted pr.2 = 0
  heap_nodup : (st.heap.map Prod.snd).Nodup
  heap_comp : ∀ j < es.length, j ∉ st.emitted → remEdges es st.emitted j = 0 →
      (mkPrio (es.map (·.is_working_copy)) j, j) ∈ st.heap
  em_nodup : st.emitted.Nodup
  em_lt : ∀ i ∈ st.emitted, i < es.length
  eo_len : st.entriesOpt.length = es.length
  eo_eq : ∀ i < es.length,
      st.entriesOpt.getD i none = if i ∈ st.emitted then none else some (es.getD i default)
  res_eq : st.result = st.emitted.map (fun i => es.getD i default)
  pan : st.panicked = false
  trace_children : ∀ k < st.emitted.length, ∀ i < es.length,
      0 < edgeTo es i (st.emitted.getD k 0) → i ∈ st.emitted.take k
  trace_max : ∀ k < st.emitted.length, ∀ w < es.length, w ∉ st.emitted.take k →
      remEdges es (st.emitted.take k) w = 0 →
      ¬ SortPriority.lt (mkPrio (es.map (·.is_working_copy)) (st.emitted.getD k 0))
          (mkPrio (es.map (·.is_working_copy)) w)

/-- Record-level child-to-parent edge: entry `i` names entry `j`'s id among
its parent ids. -/
def recEdge (es : List LogEntry) (i j : Nat) : Prop :=
  i < es.length ∧ j < es.length ∧
    (es.getD j default).commit_id_full ∈ (es.getD i default).parent_commit_ids

/-- The parent relation of the batch has no cycle. -/
def Acyclic (es : List LogEntry) : Prop :=
  ∀ i, ¬ Relation.TransGen (recEdge es) i i

/-- The topological output invariant of claim C1, about an output list:
whenever the record at position `a` names the id of the record at position
`b` as a parent, position `a` comes strictly first. -/
def ChildBeforeParent (out : List LogEntry) : Prop :=
  ∀ a b, a < out.length → b < out.length →
    (out.getD b default).commit_id_full ∈ (out.getD a default).parent_commit_ids →
    a < b

/-- Cell lists of equal length whose `CellKind` tags agree pointwise.  The
character-overdraw passes of step 8 preserve this relation, since they only
rewrite the `left`/`right` characters of existing cells. -/
def KindsEq (a b : List Cell2) : Prop :=
  a.length = b.length ∧ ∀ m : Nat,
    (a.getD m default).kind_left = (b.getD m default).kind_left ∧
    (a.getD m default).kind_right = (b.getD m default).kind_right

/-- Test-input constructor, mirroring the `make_entry` helper of the
source's test modules: only the graph-relevant fields are set. -/
def mkEntry (id : String) (ps : List String) (wc : Bool := false) : LogEntry :=
  { commit_id_full := id, parent_commit_ids := ps, is_working_copy := wc }

/-- A two-record cycle: each names the other as parent. -/
def cycleInput : List LogEntry := [mkEntry "A" ["B"], mkEntry "B" ["A"]]

/-- Duplicate-identifier batch on which re-sequencing is not idempotent:
a child of id `P` plus two records carrying id `P`, the checked-out one
last. -/
def dupIdInput : List LogEntry :=
  [mkEntry "C" ["P"], mkEntry "P" [], mkEntry "P" [] true]

/-- Convergence onto a record with no in-batch parent: both heads name `C`
as parent, so `C` occupies two lanes when it is processed. -/
def convergeRootInput : List LogEntry :=
  [mkEntry "A" ["C"], mkEntry "B" ["C"], mkEntry "C" []]

/-- The merge-and-converge batch of claim C5. -/
def mergeInput : List LogEntry :=
  [mkEntry "M" ["P1", "P2"], mkEntry "P1" ["R"], mkEntry "P2" ["R"], mkEntry "R" []]

/-- The branch-and-converge batch of claim C6. -/
def branchInput : List LogEntry :=
  [mkEntry "A" ["B"], mkEntry "C" ["B"], mkEntry "B" ["D"], mkEntry "D" []]

/-- Sibling heads with the checked-out one second in the input. -/
def siblingHeadsInput : List LogEntry :=
  [mkEntry "p" ["o"], mkEntry "y" ["o"] true, mkEntry "o" []]

/-- A two-record linear chain (used to witness the amended claim C1). -/
def chainInput : List LogEntry := [mkEntry "A" ["B"], mkEntry "B" []]

/-! ## Concrete rendering claims -/

/-- C5: the batch `[M→[P1,P2], P1→R, P2→R, R→(none)]` renders, row by row,
as `○─┐`, `○ │`, `│ ○`, `○─┘` in the plain two-character-per-lane form. -/
theorem C5_merge_and_converge_rows :
    (build_graph_rows mergeInput).map render_graph_row_plain
      = ["○─┐", "○ │", "│ ○", "○─┘"] := by decide

/-- C6: the batch `[A→B, C→B, B→D, D→(none)]` is a fixed point of the
sequencer (both heads, tie-break by original index) and renders as `○`,
`○ │`, `○─┘`, `○`. -/
theorem C6_branch_and_converge :
    reorder_entries_for_graph branchInput = branchInput ∧
    (build_graph_rows (reorder_entries_for_graph branchInput)).map render_graph_row_plain
      = ["○", "○ │", "○─┘", "○"] := by decide

/-- C1 counterexample: on the cyclic batch `[A→B, B→A]` the output of
`reorder_entries_for_graph` is `[A, B]` (the leftover fallback), and `B`'s
in-batch parent `A` sits strictly before `B`, violating the claimed
topological invariant. -/
theorem C1_counterexample :
    ¬ ChildBeforeParent (reorder_entries_for_graph cycleInput) := by
  intro h
  have h10 := h 1 0 (by decide) (by decide) (by decide)
  omega

/-- C9 counterexample: on the duplicate-identifier batch `dupIdInput`,
re-sequencing the sequencer's output changes the order, so
`sequence (sequence records) = sequence records` fails as stated. -/
theorem C9_counterexample :
    reorder_entries_for_graph (reorder_entries_for_graph dupIdInput)
      ≠ reorder_entries_for_graph dupIdInput := by decide

/-- C4 counterexample: in `convergeRootInput` the commit `C` occupies two
lanes when processed (a convergence), has no parent in the batch, and after
its per-record processing the lane table still holds `C` — so the claimed
removal of every duplicate occurrence fails for the no-parent case. -/
theorem C4_counterexample :
    (lanesAfter convergeRootInput [] (convergeRootInput.take 2)).count "C" = 2 ∧
    (convergeRootInput.getD 2 default).parent_commit_ids = [] ∧
    "C" ∈ (graphStep convergeRootInput
        (lanesAfter convergeRootInput [] (convergeRootInput.take 2))
        (convergeRootInput.getD 2 default)).1 := by decide

/-! ## Order lemmas for `SortPriority.lt` and `heapLt` -/

theorem SortPriority.lt_irrefl (a : SortPriority) : ¬ a.lt a := by
  rintro (⟨h1, h2⟩ | ⟨_, h2⟩)
  · rw [h1] at h2; cases h2
  · omega

theorem SortPriority.lt_trans {a b c : SortPriority} (h1 : a.lt b) (h2 : b.lt c) : a.lt c := by
  rcases h1 with ⟨ha, hb⟩ | ⟨hab, hi⟩ <;> rcases h2 with ⟨hb', hc⟩ | ⟨hbc, hi'⟩
  · rw [hb] at hb'; cases hb'
  · exact Or.inl ⟨ha, hbc ▸ hb⟩
  · exact Or.inl ⟨hab ▸ hb', hc⟩
  · exact Or.inr ⟨hab.trans hbc, hi.trans hi'⟩

theorem SortPriority.lt_connex {a b : SortPriority} (h : a ≠ b) : a.lt b ∨ b.lt a := by
  rcases a with ⟨aw, ai⟩; rcases b with ⟨bw, bi⟩
  by_cases hw : aw = bw
  · subst hw
    rcases lt_trichotomy ai bi with h1 | h1 | h1
    · exact Or.inl (Or.inr ⟨rfl, h1⟩)
    · exact absurd (by rw [h1]) h
    · exact Or.inr (Or.inr ⟨rfl, h1⟩)
  · cases aw <;> cases bw
    · exact absurd rfl hw
    · exact Or.inl (Or.inl ⟨rfl, rfl⟩)
    · exact Or.inr (Or.inl ⟨rfl, rfl⟩)
    · exact absurd rfl hw

theorem heapLt_irrefl (a : SortPriority × Nat) : ¬ heapLt a a := by
  rintro (h | ⟨_, h⟩)
  · exact SortPriority.lt_irrefl _ h
  · exact lt_irrefl _ h

theorem heapLt_trans {a b c : SortPriority × Nat} (h1 : heapLt a b) (h2 : heapLt b c) :
    heapLt a c := by
  rcases h1 with h1 | ⟨e1, i1⟩ <;> rcases h2 with h2 | ⟨e2, i2⟩
  · exact Or.inl (SortPriority.lt_trans h1 h2)
  · exact Or.inl (e2 ▸ h1)
  · exact Or.inl (e1 ▸ h2)
  · exact Or.inr ⟨e1.trans e2, i1.trans i2⟩

theorem heapLt_connex {a b : SortPriority × Nat} (h : a ≠ b) : heapLt a b ∨ heapLt b a := by
  by_cases hp : a.1 = b.1
  · rcases lt_trichotomy a.2 b.2 with h1 | h1 | h1
    · exact Or.inl (Or.inr ⟨hp, h1⟩)
    · exact absurd (Prod.ext hp h1) h
    · exact Or.inr (Or.inr ⟨hp.symm, h1⟩)
  · rcases SortPriority.lt_connex hp with h1 | h1
    · exact Or.inl (Or.inl h1)
    · exact Or.inr (Or.inl h1)

/-! ## `popMax` lemmas -/

theorem popMax_eq_none {l : List (SortPriority × Nat)} : popMax l = none ↔ l = [] := by
  cases l with
  | nil => simp [popMax]
  | cons x xs =>
    simp only [popMax]
    cases h : popMax xs with
    | none => simp
    | some mr => cases mr with
      | mk m rest => by_cases hlt : heapLt x m <;> simp [hlt]

theorem popMax_perm {l : List (SortPriority × Nat)} {m rest}
    (h : popMax l = some (m, rest)) : l.Perm (m :: rest) := by
  induction l generalizing m rest with
  | nil => simp [popMax] at h
  | cons x xs ih =>
    simp only [popMax] at h
    cases hxs : popMax xs with
    | none =>
      rw [hxs] at h
      rcases popMax_eq_none.mp hxs with rfl
      simp only [Option.some.injEq, Prod.mk.injEq] at h
      rw [h.1, ← h.2]
    | some mr =>
      rcases mr with ⟨m', rest'⟩
      rw [hxs] at h
      by_cases hlt : heapLt x m'
      · simp only [hlt, if_pos] at h
        simp only [Option.some.injEq, Prod.mk.injEq] at h
        rcases h with ⟨rfl, rfl⟩
        exact ((ih hxs).cons x).trans (List.Perm.swap _ _ _)
      · simp only [hlt, if_neg, not_false_iff] at h
        simp only [Option.some.injEq, Prod.mk.injEq] at h
        rcases h with ⟨rfl, rfl⟩
        exact List.Perm.refl _

theorem popMax_not_lt {l : List (SortPriority × Nat)} {m rest}
    (h : popMax l = some (m, rest)) : ∀ y ∈ l, ¬ heapLt m y := by
  induction l generalizing m rest with
  | nil => simp [popMax] at h
  | cons x xs ih =>
    simp only [popMax] at h
    cases hxs : popMax xs with
    | none =>
      rw [hxs] at h
      rcases popMax_eq_none.mp hxs with rfl
      simp only [Option.some.injEq, Prod.mk.injEq] at h
      intro y hy
      rcases List.mem_singleton.mp hy with rfl
      rw [← h.1]; exact heapLt_irrefl _
    | some mr =>
      rcases mr with ⟨m', rest'⟩
      rw [hxs] at h
      by_cases hlt : heapLt x m'
      · simp only [hlt, if_pos] at h
        simp only [Option.some.injEq, Prod.mk.injEq] at h
        rcases h with ⟨rfl, rfl⟩
        intro y hy
        rcases List.mem_cons.mp hy with rfl | hy'
        · intro hc; exact heapLt_irrefl _ (heapLt_trans hc hlt)
        · exact ih hxs y hy'
      · simp only [hlt, if_neg, not_false_iff] at h
        simp only [Option.some.injEq, Prod.mk.injEq] at h
        rcases h with ⟨rfl, rfl⟩
        intro y hy
        rcases List.mem_cons.mp hy with rfl | hy'
        · exact heapLt_irrefl _
        · intro hc
          have hy'' := ih hxs y hy'
          by_cases hym : y = m'
          · exact hlt (hym ▸ hc)
          · rcases heapLt_connex hym with h1 | h1
            · exact hlt (heapLt_trans hc h1)
            · exact hy'' h1

theorem popMax_mem {l : List (SortPriority × Nat)} {m rest}
    (h : popMax l = some (m, rest)) : m ∈ l :=
  (popMax_perm h).mem_iff.mpr (List.mem_cons_self _ _)

/-! ## `idToIdx` lemmas -/

theorem foldl_pick_some (es : List LogEntry) (s : String) :
    ∀ (L : List Nat) (acc : Option Nat) (j : Nat),
      L.foldl (fun acc i =>
        if (es.getD i default).commit_id_full = s then some i else acc) acc = some j →
      acc = some j ∨ (j ∈ L ∧ (es.getD j default).commit_id_full = s) := by
  intro L
  induction L with
  | nil => intro acc j h; exact Or.inl h
  | cons i L ih =>
    intro acc j h
    rcases ih _ j h with h' | ⟨hj, hs⟩
    · beta_reduce at h'
      by_cases hi : (es.getD i default).commit_id_full = s
      · rw [if_pos hi] at h'
        obtain rfl : i = j := Option.some.inj h'
        exact Or.inr ⟨List.mem_cons_self _ _, hi⟩
      · rw [if_neg hi] at h'
        exact Or.inl h'
    · exact Or.inr ⟨List.mem_cons_of_mem _ hj, hs⟩

theorem foldl_pick_none (es : List LogEntry) (s : String) :
    ∀ (L : List Nat) (acc : Option Nat),
      L.foldl (fun acc i =>
        if (es.getD i default).commit_id_full = s then some i else acc) acc = none →
      acc = none ∧ ∀ i ∈ L, (es.getD i default).commit_id_full ≠ s := by
  intro L
  induction L with
  | nil => intro acc h; exact ⟨h, by simp⟩
  | cons i L ih =>
    intro acc h
    rcases ih _ h with ⟨hne, hall⟩
    beta_reduce at hne
    by_cases hi : (es.getD i default).commit_id_full = s
    · rw [if_pos hi] at hne; cases hne
    · rw [if_neg hi] at hne
      refine ⟨hne, ?_⟩
      intro i' hi'
      rcases List.mem_cons.mp hi' with rfl | h'
      · exact hi
      · exact hall i' h'

theorem idToIdx_some {es : List LogEntry} {s : String} {j : Nat}
    (h : idToIdx es s = some j) :
    j < es.length ∧ (es.getD j default).commit_id_full = s := by
  rcases foldl_pick_some es s _ _ _ h with h' | ⟨hj, hs⟩
  · cases h'
  · exact ⟨List.mem_range.mp hj, hs⟩

theorem idToIdx_ne_none {es : List LogEntry} {s : String} {j : Nat}
    (hj : j < es.length) (hs : (es.getD j default).commit_id_full = s) :
    idToIdx es s ≠ none := by
  intro h
  exact (foldl_pick_none es s _ _ h).2 j (List.mem_range.mpr hj) hs

theorem nodupIds_inj {es : List LogEntry}
    (hnd : (es.map (·.commit_id_full)).Nodup) {a b : Nat}
    (ha : a < es.length) (hb : b < es.length)
    (h : (es.getD a default).commit_id_full = (es.getD b default).commit_id_full) :
    a = b := by
  have ha' : a < (es.map (·.commit_id_full)).length := by simpa using ha
  have hb' : b < (es.map (·.commit_id_full)).length := by simpa using hb
  have h2 : (es.map (·.commit_id_full)).get ⟨a, ha'⟩
      = (es.map (·.commit_id_full)).get ⟨b, hb'⟩ := by
    rw [List.get_eq_getElem, List.get_eq_getElem, List.getElem_map, List.getElem_map]
    rw [List.getD_eq_getElem _ _ ha, List.getD_eq_getElem _ _ hb] at h
    exact h
  rw [List.get_eq_getElem, List.get_eq_getElem] at h2
  exact (List.Nodup.getElem_inj_iff hnd).mp h2

theorem idToIdx_eq_of_nodup {es : List LogEntry}
    (hnd : (es.map (·.commit_id_full)).Nodup) {b : Nat} (hb : b < es.length) :
    idToIdx es ((es.getD b default).commit_id_full) = some b := by
  cases h : idToIdx es ((es.getD b default).commit_id_full) with
  | none => exact absurd h (idToIdx_ne_none hb rfl)
  | some j =>
    obtain ⟨hj, hs⟩ := idToIdx_some h
    rw [nodupIds_inj hnd hj hb hs]

theorem idToIdx_iff_of_nodup {es : List LogEntry}
    (hnd : (es.map (·.commit_id_full)).Nodup) {s : String} {j : Nat} :
    idToIdx es s = some j ↔ j < es.length ∧ (es.getD j default).commit_id_full = s := by
  constructor
  · exact idToIdx_some
  · rintro ⟨hj, rfl⟩
    exact idToIdx_eq_of_nodup hnd hj

/-! ## Child-count table lemmas -/

theorem sum_range_list (n : Nat) (f : Nat → Nat) :
    ((List.range n).map f).sum = ∑ i in Finset.range n, f i := by
  induction n with
  | zero => simp
  | succ n ih =>
    rw [List.range_succ, List.map_append, List.sum_append, Finset.sum_range_succ, ih]
    simp

theorem map_getD_range (es : List LogEntry) :
    (List.range es.length).map (fun i => es.getD i default) = es := by
  apply List.ext_getElem (by simp)
  intro n h1 h2
  rw [List.getElem_map, List.getElem_range, List.getD_eq_getElem _ _ h2]

theorem remEdges_nil (es : List LogEntry) (j : Nat) :
    remEdges es [] j = ∑ i in Finset.range es.length, edgeTo es i j := by
  unfold remEdges
  congr 1
  apply Finset.filter_true_of_mem
  intro i _
  simp

theorem bumpParent_length (es : List LogEntry) (counts : List Nat) (p : String) :
    (bumpParent es counts p).length = counts.length := by
  unfold bumpParent
  cases idToIdx es p <;> simp

theorem bumpParent_getD (es : List LogEntry) (counts : List Nat) (p : String)
    (hlen : counts.length = es.length) (j : Nat) (hj : j < es.length) :
    (bumpParent es counts p).getD j 0
      = counts.getD j 0 + (if idToIdx es p = some j then 1 else 0) := by
  unfold bumpParent
  cases h : idToIdx es p with
  | none => simp
  | some j' =>
    obtain ⟨hj', _⟩ := idToIdx_some h
    have hlen' : j < (counts.set j' (counts.getD j' 0 + 1)).length := by
      rw [List.length_set]; omega
    rw [List.getD_eq_getElem _ _ hlen', List.getElem_set]
    by_cases hjj : j' = j
    · subst hjj
      rw [if_pos rfl, if_pos rfl]
    · rw [if_neg hjj, if_neg (fun hc => hjj (Option.some.inj hc))]
      exact ((List.getD_eq_getElem counts 0 (show j < counts.length by omega)).symm.trans
        (Nat.add_zero _).symm)

theorem foldl_bump_getD (es : List LogEntry) :
    ∀ (pl : List String) (counts : List Nat), counts.length = es.length →
      (pl.foldl (bumpParent es) counts).length = es.length ∧
      ∀ j, j < es.length → (pl.foldl (bumpParent es) counts).getD j 0
        = counts.getD j 0 + pl.countP (fun p => decide (idToIdx es p = some j)) := by
  intro pl
  induction pl with
  | nil => intro counts h; exact ⟨h, by simp⟩
  | cons p ps ih =>
    intro counts h
    have hb := bumpParent_length es counts p
    obtain ⟨hl, hg⟩ := ih (bumpParent es counts p) (hb.trans h)
    refine ⟨hl, ?_⟩
    intro j hj
    rw [List.foldl_cons, hg j hj, bumpParent_getD es counts p h j hj, List.countP_cons]
    by_cases hc : idToIdx es p = some j
    · rw [if_pos hc, if_pos (by simp [hc])]
      omega
    · rw [if_neg hc, if_neg (by simp [hc])]
      omega

theorem foldl_entries_getD (es : List LogEntry) :
    ∀ (L : List LogEntry) (counts : List Nat), counts.length = es.length →
      (L.foldl (fun c e => e.parent_commit_ids.foldl (bumpParent es) c) counts).length
          = es.length ∧
      ∀ j, j < es.length →
        (L.foldl (fun c e => e.parent_commit_ids.foldl (bumpParent es) c) counts).getD j 0
          = counts.getD j 0
            + (L.map (fun e => e.parent_commit_ids.countP
                (fun p => decide (idToIdx es p = some j)))).sum := by
  intro L
  induction L with
  | nil => intro counts h; exact ⟨h, by simp⟩
  | cons e L ih =>
    intro counts h
    obtain ⟨hl1, hg1⟩ := foldl_bump_getD es e.parent_commit_ids counts h
    obtain ⟨hl, hg⟩ := ih _ hl1
    refine ⟨hl, ?_⟩
    intro j hj
    rw [List.foldl_cons, hg j hj, hg1 j hj, List.map_cons, List.sum_cons]
    omega

theorem initCounts_length (es : List LogEntry) : (initCounts es).length = es.length :=
  (foldl_entries_getD es es _ (by simp)).1

theorem initCounts_getD (es : List LogEntry) (j : Nat) (hj : j < es.length) :
    (initCounts es).getD j 0 = remEdges es [] j := by
  have h := (foldl_entries_getD es es (List.replicate es.length 0) (by simp)).2 j hj
  have hmap : es.map (fun e => e.parent_commit_ids.countP
        (fun p => decide (idToIdx es p = some j)))
      = (List.range es.length).map (fun i => edgeTo es i j) := by
    apply List.ext_getElem (by simp)
    intro n h1 h2
    rw [List.getElem_map, List.getElem_map, List.getElem_range]
    unfold edgeTo
    rw [List.getD_eq_getElem _ _ (by simpa using h1)]
  rw [initCounts, h, hmap, sum_range_list, remEdges_nil]
  simp [List.getD]

/-! ## Initial heap lemmas -/

theorem foldl_guard_append {α : Type} (P : Nat → Prop) [DecidablePred P] (g : Nat → α) :
    ∀ (L : List Nat) (acc : List α),
      L.foldl (fun h i => if P i then g i :: h else h) acc
        = ((L.filter (fun i => decide (P i))).reverse.map g) ++ acc := by
  intro L
  induction L with
  | nil => intro acc; simp
  | cons i L ih =>
    intro acc
    rw [List.foldl_cons]
    by_cases hq : P i
    · rw [if_pos hq, ih, List.filter_cons_of_pos (by simpa using hq), List.reverse_cons,
        List.map_append]
      simp
    · rw [if_neg hq, ih, List.filter_cons_of_neg (by simpa using hq)]

theorem mem_initHeap {wc : List Bool} {counts : List Nat} {pr : SortPriority × Nat} :
    pr ∈ initHeap wc counts ↔
      ∃ j, pr = (mkPrio wc j, j) ∧ j < counts.length ∧ counts.getD j 0 = 0 := by
  unfold initHeap
  rw [foldl_guard_append (fun idx => counts.getD idx 0 = 0)
    (fun idx => ((mkPrio wc idx, idx) : SortPriority × Nat))]
  simp only [List.append_nil, List.mem_map, List.mem_reverse, List.mem_filter,
    List.mem_range, decide_eq_true_eq]
  constructor
  · rintro ⟨j, ⟨hj, hc⟩, rfl⟩
    exact ⟨j, rfl, hj, hc⟩
  · rintro ⟨j, rfl, hj, hc⟩
    exact ⟨j, ⟨hj, hc⟩, rfl⟩

theorem initHeap_idx_nodup (wc : List Bool) (counts : List Nat) :
    ((initHeap wc counts).map Prod.snd).Nodup := by
  unfold initHeap
  rw [foldl_guard_append (fun idx => counts.getD idx 0 = 0)
    (fun idx => ((mkPrio wc idx, idx) : SortPriority × Nat))]
  rw [List.append_nil, List.map_map]
  have hcomp : (Prod.snd ∘ fun idx => ((mkPrio wc idx, idx) : SortPriority × Nat))
      = fun idx => idx := rfl
  rw [hcomp, List.map_id_fun']
  exact List.nodup_reverse.mpr ((List.nodup_range _).filter _)

/-! ## Measure and drain lemmas -/

theorem sum_set_getD (l : List Nat) : ∀ (j : Nat) (a : Nat), j < l.length →
    (l.set j a).sum + l.getD j 0 = l.sum + a := by
  induction l with
  | nil => intro j a h; simp at h
  | cons x xs ih =>
    intro j a h
    cases j with
    | zero => simp [List.set]; omega
    | succ j =>
      simp only [List.set, List.sum_cons, List.getD_cons_succ]
      have := ih j a (by simpa using h)
      omega

theorem processParents_cons_none (es : List LogEntry) (wc : List Bool) (E : List Nat)
    (p : String) (ps : List String) (counts : List Nat) (heap : List (SortPriority × Nat))
    (h : idToIdx es p = none) :
    processParents es wc E (p :: ps) (counts, heap)
      = processParents es wc E ps (counts, heap) := by
  conv_lhs => rw [processParents, h]

theorem processParents_cons_some (es : List LogEntry) (wc : List Bool) (E : List Nat)
    (p : String) (ps : List String) (counts : List Nat) (heap : List (SortPriority × Nat))
    (j : Nat) (h : idToIdx es p = some j) :
    processParents es wc E (p :: ps) (counts, heap)
      = if 0 < counts.getD j 0 then
          (if (counts.set j (counts.getD j 0 - 1)).getD j 0 = 0 ∧ j ∉ E then
            processParents es wc E ps
              (counts.set j (counts.getD j 0 - 1), (mkPrio wc j, j) :: heap)
          else processParents es wc E ps (counts.set j (counts.getD j 0 - 1), heap))
        else processParents es wc E ps (counts, heap) := by
  conv_lhs => rw [processParents, h]

theorem processParents_measure (es : List LogEntry) (wc : List Bool) (E : List Nat) :
    ∀ (pl : List String) (counts : List Nat) (heap : List (SortPriority × Nat)),
      (processParents es wc E pl (counts, heap)).1.sum
        + (processParents es wc E pl (counts, heap)).2.length
        ≤ counts.sum + heap.length := by
  intro pl
  induction pl with
  | nil => intro counts heap; simp [processParents]
  | cons p ps ih =>
    intro counts heap
    cases h : idToIdx es p with
    | none => rw [processParents_cons_none es wc E p ps counts heap h]; exact ih counts heap
    | some j =>
      rw [processParents_cons_some es wc E p ps counts heap j h]
      by_cases hpos : 0 < counts.getD j 0
      · rw [if_pos hpos]
        have hjlen : j < counts.length := by
          by_contra hc
          push_neg at hc
          rw [List.getD_eq_default _ _ hc] at hpos
          omega
        have hsum := sum_set_getD counts j (counts.getD j 0 - 1) hjlen
        by_cases hc2 : (counts.set j (counts.getD j 0 - 1)).getD j 0 = 0 ∧ j ∉ E
        · rw [if_pos hc2]
          have h3 := ih (counts.set j (counts.getD j 0 - 1)) ((mkPrio wc j, j) :: heap)
          simp only [List.length_cons] at h3 ⊢
          omega
        · rw [if_neg hc2]
          have h3 := ih (counts.set j (counts.getD j 0 - 1)) heap
          omega
      · rw [if_neg hpos]
        exact ih counts heap

theorem stepFuel_succ_none (es : List LogEntry) (wc : List Bool) (fuel : Nat)
    (st : RState) (h : popMax st.heap = none) :
    stepFuel es wc (fuel + 1) st = st := by
  conv_lhs => rw [stepFuel, h]

theorem stepFuel_succ_emitted (es : List LogEntry) (wc : List Bool) (fuel : Nat)
    (st : RState) (p : SortPriority) (idx : Nat) (rest : List (SortPriority × Nat))
    (h : popMax st.heap = some ((p, idx), rest)) (hem : idx ∈ st.emitted) :
    stepFuel es wc (fuel + 1) st = stepFuel es wc fuel { st with heap := rest } := by
  conv_lhs => rw [stepFuel, h]
  exact if_pos hem

theorem stepFuel_succ_panic (es : List LogEntry) (wc : List Bool) (fuel : Nat)
    (st : RState) (p : SortPriority) (idx : Nat) (rest : List (SortPriority × Nat))
    (h : popMax st.heap = some ((p, idx), rest)) (hem : idx ∉ st.emitted)
    (heo : st.entriesOpt.getD idx none = none) :
    stepFuel es wc (fuel + 1) st
      = stepFuel es wc fuel { st with heap := rest, panicked := true } := by
  conv_lhs => rw [stepFuel, h]
  refine (if_neg hem).trans ?_
  rw [heo]

theorem stepFuel_succ_emit (es : List LogEntry) (wc : List Bool) (fuel : Nat)
    (st : RState) (p : SortPriority) (idx : Nat) (rest : List (SortPriority × Nat))
    (e : LogEntry) (h : popMax st.heap = some ((p, idx), rest)) (hem : idx ∉ st.emitted)
    (heo : st.entriesOpt.getD idx none = some e) :
    stepFuel es wc (fuel + 1) st
      = stepFuel es wc fuel (emitState es wc st idx rest e) := by
  conv_lhs => rw [stepFuel, h]
  refine (if_neg hem).trans ?_
  rw [heo]

theorem stepFuel_drain (es : List LogEntry) (wc : List Bool) :
    ∀ (fuel : Nat) (st : RState), st.counts.sum + st.heap.length ≤ fuel →
      (stepFuel es wc fuel st).heap = [] := by
  intro fuel
  induction fuel with
  | zero =>
    intro st h
    simp only [stepFuel]
    exact List.length_eq_zero.mp (by omega)
  | succ fuel ih =>
    intro st h
    cases hpop : popMax st.heap with
    | none =>
      rw [stepFuel_succ_none es wc fuel st hpop]
      exact popMax_eq_none.mp hpop
    | some mr =>
      rcases mr with ⟨⟨p, idx⟩, rest⟩
      have hlen : st.heap.length = rest.length + 1 := by
        have := (popMax_perm hpop).length_eq
        simpa using this
      by_cases hem : idx ∈ st.emitted
      · rw [stepFuel_succ_emitted es wc fuel st p idx rest hpop hem]
        apply ih
        simp only []
        omega
      · cases heo : st.entriesOpt.getD idx none with
        | none =>
          rw [stepFuel_succ_panic es wc fuel st p idx rest hpop hem heo]
          apply ih
          simp only []
          omega
        | some e =>
          rw [stepFuel_succ_emit es wc fuel st p idx rest e hpop hem heo]
          apply ih
          have hm := processParents_measure es wc (st.emitted ++ [idx])
            e.parent_commit_ids st.counts rest
          simp only [emitState]
          omega

theorem stepFuel_result_prefix (es : List LogEntry) (wc : List Bool) :
    ∀ (fuel : Nat) (st : RState),
      ∃ t, (stepFuel es wc fuel st).result = st.result ++ t := by
  intro fuel
  induction fuel with
  | zero => intro st; exact ⟨[], by simp [stepFuel]⟩
  | succ fuel ih =>
    intro st
    cases hpop : popMax st.heap with
    | none => exact ⟨[], by rw [stepFuel_succ_none es wc fuel st hpop]; simp⟩
    | some mr =>
      rcases mr with ⟨⟨p, idx⟩, rest⟩
      by_cases hem : idx ∈ st.emitted
      · rw [stepFuel_succ_emitted es wc fuel st p idx rest hpop hem]
        exact ih _
      · cases heo : st.entriesOpt.getD idx none with
        | none =>
          rw [stepFuel_succ_panic es wc fuel st p idx rest hpop hem heo]
          exact ih _
        | some e =>
          rw [stepFuel_succ_emit es wc fuel st p idx rest e hpop hem heo]
          obtain ⟨t, ht⟩ := ih (emitState es wc st idx rest e)
          refine ⟨[e] ++ t, ?_⟩
          rw [ht]
          simp [emitState]

/-! ## Remaining-edge counting lemmas -/

theorem remEdges_append_singleton (es : List LogEntry) (E : List Nat) (idx : Nat)
    (hidx : idx < es.length) (hnot : idx ∉ E) (j : Nat) :
    remEdges es E j = remEdges es (E ++ [idx]) j + edgeTo es idx j := by
  unfold remEdges
  have hmem : idx ∈ (Finset.range es.length).filter (fun i => i ∉ E) := by
    simp [Finset.mem_filter, Finset.mem_range, hidx, hnot]
  have hset : (Finset.range es.length).filter (fun i => i ∉ E ++ [idx])
      = ((Finset.range es.length).filter (fun i => i ∉ E)).erase idx := by
    ext i
    simp only [Finset.mem_filter, Finset.mem_erase, Finset.mem_range, List.mem_append,
      List.mem_singleton]
    tauto
  rw [hset]
  exact (Finset.sum_erase_add _ _ hmem).symm

theorem remEdges_zero_edge {es : List LogEntry} {E : List Nat} {j : Nat}
    (h : remEdges es E j = 0) {i : Nat} (hi : i < es.length) (hnot : i ∉ E) :
    edgeTo es i j = 0 := by
  unfold remEdges at h
  rw [Finset.sum_eq_zero_iff] at h
  exact h i (by simp [Finset.mem_filter, Finset.mem_range, hi, hnot])

theorem remEdges_pos_exists {es : List LogEntry} {E : List Nat} {j : Nat}
    (h : 0 < remEdges es E j) :
    ∃ i, i < es.length ∧ i ∉ E ∧ 0 < edgeTo es i j := by
  by_contra hc
  push_neg at hc
  have : remEdges es E j = 0 := by
    unfold remEdges
    rw [Finset.sum_eq_zero_iff]
    intro i hi
    simp only [Finset.mem_filter, Finset.mem_range] at hi
    have := hc i hi.1 hi.2
    omega
  omega

theorem remEdges_congr (es : List LogEntry) {E E' : List Nat}
    (h : ∀ i, i ∈ E ↔ i ∈ E') (j : Nat) :
    remEdges es E j = remEdges es E' j := by
  unfold remEdges
  congr 1
  ext i
  simp [Finset.mem_filter, h i]

/-! ## The parent-decrement loop specification -/

theorem processParents_spec (es : List LogEntry) (wc : List Bool) (E : List Nat) :
    ∀ (pl : List String) (counts : List Nat) (heap : List (SortPriority × Nat)),
      counts.length = es.length →
      (∀ j, j < es.length → counts.getD j 0
          = remEdges es E j + pl.countP (fun p => decide (idToIdx es p = some j))) →
      (∀ pr ∈ heap, pr.2 < es.length ∧ pr.1 = mkPrio wc pr.2 ∧ pr.2 ∉ E ∧
          remEdges es E pr.2 = 0 ∧
          pl.countP (fun p => decide (idToIdx es p = some pr.2)) = 0) →
      (heap.map Prod.snd).Nodup →
      (∀ j, j < es.length → j ∉ E → remEdges es E j = 0 →
          pl.countP (fun p => decide (idToIdx es p = some j)) = 0 →
          (mkPrio wc j, j) ∈ heap) →
      ((processParents es wc E pl (counts, heap)).1.length = es.length ∧
       (∀ j, j < es.length →
          (processParents es wc E pl (counts, heap)).1.getD j 0 = remEdges es E j) ∧
       (∀ pr ∈ (processParents es wc E pl (counts, heap)).2, pr.2 < es.length ∧
          pr.1 = mkPrio wc pr.2 ∧ pr.2 ∉ E ∧ remEdges es E pr.2 = 0) ∧
       ((processParents es wc E pl (counts, heap)).2.map Prod.snd).Nodup ∧
       (∀ j, j < es.length → j ∉ E → remEdges es E j = 0 →
          (mkPrio wc j, j) ∈ (processParents es wc E pl (counts, heap)).2)) := by
  intro pl
  induction pl with
  | nil =>
    intro counts heap hlen hcnt hheap hnd hcomp
    simp only [processParents]
    refine ⟨hlen, ?_, ?_, hnd, ?_⟩
    · intro j hj
      have := hcnt j hj
      simpa using this
    · intro pr hpr
      obtain ⟨h1, h2, h3, h4, _⟩ := hheap pr hpr
      exact ⟨h1, h2, h3, h4⟩
    · intro j hj hjE hrem
      exact hcomp j hj hjE hrem (by simp)
  | cons p ps ih =>
    intro counts heap hlen hcnt hheap hnd hcomp
    cases h : idToIdx es p with
    | none =>
      rw [processParents_cons_none es wc E p ps counts heap h]
      have hqzero : ∀ j, (decide (idToIdx es p = some j)) = false := by
        intro j; simp [h]
      have hcntp : ∀ j, (p :: ps).countP (fun q => decide (idToIdx es q = some j))
          = ps.countP (fun q => decide (idToIdx es q = some j)) := by
        intro j
        rw [List.countP_cons]
        simp [hqzero j]
      apply ih counts heap hlen
      · intro j hj; rw [hcnt j hj, hcntp j]
      · intro pr hpr
        obtain ⟨h1, h2, h3, h4, h5⟩ := hheap pr hpr
        exact ⟨h1, h2, h3, h4, by rw [← hcntp]; exact h5⟩
      · exact hnd
      · intro j hj hjE hrem hps
        exact hcomp j hj hjE hrem (by rw [hcntp]; exact hps)
    | some j0 =>
      obtain ⟨hj0, _⟩ := idToIdx_some h
      rw [processParents_cons_some es wc E p ps counts heap j0 h]
      have hpred0 : (decide (idToIdx es p = some j0)) = true := by simp [h]
      have hpredne : ∀ j, j ≠ j0 → (decide (idToIdx es p = some j)) = false := by
        intro j hne
        simp only [decide_eq_false_iff_not]
        intro hc
        exact hne (Option.some.inj (h.symm.trans hc)).symm
      have hcnt0 : (p :: ps).countP (fun q => decide (idToIdx es q = some j0))
          = ps.countP (fun q => decide (idToIdx es q = some j0)) + 1 := by
        rw [List.countP_cons, hpred0]
        simp
      have hcntne : ∀ j, j ≠ j0 →
          (p :: ps).countP (fun q => decide (idToIdx es q = some j))
            = ps.countP (fun q => decide (idToIdx es q = some j)) := by
        intro j hne
        rw [List.countP_cons, hpredne j hne]
        simp
      have hpos : 0 < counts.getD j0 0 := by
        rw [hcnt j0 hj0, hcnt0]; omega
      rw [if_pos hpos]
      have hclen : (counts.set j0 (counts.getD j0 0 - 1)).length = es.length := by
        rw [List.length_set]; exact hlen
      have hc'j0 : (counts.set j0 (counts.getD j0 0 - 1)).getD j0 0
          = remEdges es E j0 + ps.countP (fun q => decide (idToIdx es q = some j0)) := by
        rw [List.getD_eq_getElem _ _ (by rw [List.length_set, hlen]; exact hj0),
          List.getElem_set_self, hcnt j0 hj0, hcnt0]
        omega
      have hc'ne : ∀ j, j < es.length → j ≠ j0 →
          (counts.set j0 (counts.getD j0 0 - 1)).getD j 0
            = remEdges es E j + ps.countP (fun q => decide (idToIdx es q = some j)) := by
        intro j hj hne
        rw [List.getD_eq_getElem _ _ (by rw [List.length_set, hlen]; exact hj),
          List.getElem_set_ne (fun hc => hne hc.symm),
          ← List.getD_eq_getElem counts 0 (by rw [hlen]; exact hj),
          hcnt j hj, hcntne j hne]
      have hc'cnt : ∀ j, j < es.length →
          (counts.set j0 (counts.getD j0 0 - 1)).getD j 0
            = remEdges es E j + ps.countP (fun q => decide (idToIdx es q = some j)) := by
        intro j hj
        by_cases hne : j = j0
        · subst hne; exact hc'j0
        · exact hc'ne j hj hne
      have hheap_cnt0 : ∀ pr ∈ heap,
          ps.countP (fun q => decide (idToIdx es q = some pr.2)) = 0 ∧
          (p :: ps).countP (fun q => decide (idToIdx es q = some pr.2)) = 0 := by
        intro pr hpr
        have h5 := (hheap pr hpr).2.2.2.2
        constructor
        · rw [List.countP_cons] at h5; omega
        · exact h5
      by_cases hc2 : (counts.set j0 (counts.getD j0 0 - 1)).getD j0 0 = 0 ∧ j0 ∉ E
      · rw [if_pos hc2]
        have hrem0 : remEdges es E j0 = 0 ∧
            ps.countP (fun q => decide (idToIdx es q = some j0)) = 0 := by
          have := hc2.1
          rw [hc'j0] at this
          omega
        have hj0notheap : j0 ∉ heap.map Prod.snd := by
          intro hc
          obtain ⟨pr, hpr, hpr2⟩ := List.mem_map.mp hc
          have := (hheap_cnt0 pr hpr).2
          rw [hpr2, hcnt0] at this
          omega
        apply ih (counts.set j0 (counts.getD j0 0 - 1)) ((mkPrio wc j0, j0) :: heap) hclen
        · exact hc'cnt
        · intro pr hpr
          rcases List.mem_cons.mp hpr with rfl | hpr'
          · exact ⟨hj0, rfl, hc2.2, hrem0.1, hrem0.2⟩
          · obtain ⟨h1, h2, h3, h4, _⟩ := hheap pr hpr'
            exact ⟨h1, h2, h3, h4, (hheap_cnt0 pr hpr').1⟩
        · rw [List.map_cons]
          exact List.Nodup.cons hj0notheap hnd
        · intro j hj hjE hrem hps
          by_cases hne : j = j0
          · subst hne; exact List.mem_cons_self _ _
          · refine List.mem_cons_of_mem _ ?_
            exact hcomp j hj hjE hrem (by rw [hcntne j hne]; exact hps)
      · rw [if_neg hc2]
        apply ih (counts.set j0 (counts.getD j0 0 - 1)) heap hclen
        · exact hc'cnt
        · intro pr hpr
          obtain ⟨h1, h2, h3, h4, _⟩ := hheap pr hpr
          exact ⟨h1, h2, h3, h4, (hheap_cnt0 pr hpr).1⟩
        · exact hnd
        · intro j hj hjE hrem hps
          by_cases hne : j = j0
          · subst hne
            exfalso
            apply hc2
            refine ⟨?_, hjE⟩
            rw [hc'j0, hrem, hps]
          · exact hcomp j hj hjE hrem (by rw [hcntne j hne]; exact hps)

/-! ## Invariant preservation -/

theorem emitState_counts (es : List LogEntry) (wc : List Bool) (st : RState) (idx : Nat)
    (rest : List (SortPriority × Nat)) (e : LogEntry) :
    (emitState es wc st idx rest e).counts
      = (processParents es wc (st.emitted ++ [idx]) e.parent_commit_ids
          (st.counts, rest)).1 := rfl

theorem emitState_heap (es : List LogEntry) (wc : List Bool) (st : RState) (idx : Nat)
    (rest : List (SortPriority × Nat)) (e : LogEntry) :
    (emitState es wc st idx rest e).heap
      = (processParents es wc (st.emitted ++ [idx]) e.parent_commit_ids
          (st.counts, rest)).2 := rfl

theorem emitState_emitted (es : List LogEntry) (wc : List Bool) (st : RState) (idx : Nat)
    (rest : List (SortPriority × Nat)) (e : LogEntry) :
    (emitState es wc st idx rest e).emitted = st.emitted ++ [idx] := rfl

theorem emitState_entriesOpt (es : List LogEntry) (wc : List Bool) (st : RState) (idx : Nat)
    (rest : List (SortPriority × Nat)) (e : LogEntry) :
    (emitState es wc st idx rest e).entriesOpt = st.entriesOpt.set idx none := rfl

theorem emitState_result (es : List LogEntry) (wc : List Bool) (st : RState) (idx : Nat)
    (rest : List (SortPriority × Nat)) (e : LogEntry) :
    (emitState es wc st idx rest e).result = st.result ++ [e] := rfl

theorem emitState_panicked (es : List LogEntry) (wc : List Bool) (st : RState) (idx : Nat)
    (rest : List (SortPriority × Nat)) (e : LogEntry) :
    (emitState es wc st idx rest e).panicked = st.panicked := rfl

theorem emitState_inv {es : List LogEntry} {st : RState} (inv : Inv es st)
    {p : SortPriority} {idx : Nat} {rest : List (SortPriority × Nat)} {e : LogEntry}
    (hpop : popMax st.heap = some ((p, idx), rest))
    (heo : st.entriesOpt.getD idx none = some e) :
    Inv es (emitState es (es.map (·.is_working_copy)) st idx rest e) := by
  have hmem : (p, idx) ∈ st.heap := popMax_mem hpop
  obtain ⟨hidxlt, hkey, hidxem, hready⟩ := inv.heap_mem _ hmem
  replace hidxlt : idx < es.length := hidxlt
  replace hkey : p = mkPrio (es.map (·.is_working_copy)) idx := hkey
  replace hidxem : idx ∉ st.emitted := hidxem
  replace hready : remEdges es st.emitted idx = 0 := hready
  have he : e = es.getD idx default := by
    have := inv.eo_eq idx hidxlt
    rw [if_neg hidxem] at this
    exact Option.some.inj (heo.symm.trans this)
  have hple : e.parent_commit_ids = (es.getD idx default).parent_commit_ids := by rw [he]
  have hcntpl : ∀ j, e.parent_commit_ids.countP
      (fun q => decide (idToIdx es q = some j)) = edgeTo es idx j := by
    intro j
    rw [hple]
    rfl
  have hperm : st.heap.Perm ((p, idx) :: rest) := popMax_perm hpop
  have hrestmem : ∀ pr ∈ rest, pr ∈ st.heap := by
    intro pr hpr
    exact hperm.mem_iff.mpr (List.mem_cons_of_mem _ hpr)
  have hsndnd : (idx :: rest.map Prod.snd).Nodup := by
    have h1 : (st.heap.map Prod.snd).Perm (((p, idx) :: rest).map Prod.snd) :=
      hperm.map Prod.snd
    have := h1.nodup_iff.mp inv.heap_nodup
    simpa using this
  have hidxrest : idx ∉ rest.map Prod.snd := (List.nodup_cons.mp hsndnd).1
  have hrestnd : (rest.map Prod.snd).Nodup := (List.nodup_cons.mp hsndnd).2
  have hE'nd : (st.emitted ++ [idx]).Nodup := by
    refine inv.em_nodup.append (List.nodup_singleton _) ?_
    intro a ha hb
    rw [List.mem_singleton] at hb
    subst hb
    exact hidxem ha
  have hsplit : ∀ j, remEdges es st.emitted j
      = remEdges es (st.emitted ++ [idx]) j + edgeTo es idx j :=
    remEdges_append_singleton es st.emitted idx hidxlt hidxem
  have hE'mem : ∀ i, i ∈ st.emitted ++ [idx] ↔ i ∈ st.emitted ∨ i = idx := by
    intro i; simp [List.mem_append]
  have hspec := processParents_spec es (es.map (·.is_working_copy)) (st.emitted ++ [idx])
    e.parent_commit_ids st.counts rest inv.counts_len
    (by
      intro j hj
      rw [inv.counts_eq j hj, hsplit j, hcntpl j])
    (by
      intro pr hpr
      obtain ⟨h1, h2, h3, h4⟩ := inv.heap_mem _ (hrestmem pr hpr)
      have hne : pr.2 ≠ idx := by
        intro hc
        exact hidxrest (hc ▸ List.mem_map_of_mem Prod.snd hpr)
      refine ⟨h1, h2, ?_, ?_, ?_⟩
      · rw [hE'mem]
        rintro (hc | hc)
        · exact h3 hc
        · exact hne hc
      · have := hsplit pr.2
        omega
      · rw [hcntpl]
        have := hsplit pr.2
        have hz : edgeTo es idx pr.2 = 0 := remEdges_zero_edge h4 hidxlt hidxem
        exact hz)
    hrestnd
    (by
      intro j hj hjE' hrem hcnt
      have hjem : j ∉ st.emitted := fun hc => hjE' ((hE'mem j).mpr (Or.inl hc))
      have hjne : j ≠ idx := fun hc => hjE' ((hE'mem j).mpr (Or.inr hc))
      have hrem0 : remEdges es st.emitted j = 0 := by
        rw [hsplit j, hrem, ← hcntpl j, hcnt]
      have := inv.heap_comp j hj hjem hrem0
      have hmem' := hperm.mem_iff.mp this
      rcases List.mem_cons.mp hmem' with hc | hc
      · exfalso
        have : j = idx := congrArg Prod.snd hc
        exact hjne this
      · exact hc)
  obtain ⟨pl1, pl2, pl3, pl4, pl5⟩ := hspec
  constructor
  case counts_len => rw [emitState_counts]; exact pl1
  case counts_eq => rw [emitState_counts, emitState_emitted]; exact pl2
  case heap_mem => rw [emitState_heap, emitState_emitted]; exact pl3
  case heap_nodup => rw [emitState_heap]; exact pl4
  case heap_comp => rw [emitState_heap, emitState_emitted]; exact pl5
  case em_nodup => rw [emitState_emitted]; exact hE'nd
  case em_lt =>
    rw [emitState_emitted]
    intro i hi
    rcases (hE'mem i).mp hi with hc | hc
    · exact inv.em_lt i hc
    · exact hc ▸ hidxlt
  case eo_len =>
    rw [emitState_entriesOpt, List.length_set]
    exact inv.eo_len
  case eo_eq =>
    rw [emitState_entriesOpt, emitState_emitted]
    intro i hi
    have hilen : i < st.entriesOpt.length := by rw [inv.eo_len]; exact hi
    by_cases hc : i = idx
    · subst hc
      rw [List.getD_eq_getElem _ _ (by rw [List.length_set]; exact hilen),
        List.getElem_set_self, if_pos ((hE'mem i).mpr (Or.inr rfl))]
    · rw [List.getD_eq_getElem _ _ (by rw [List.length_set]; exact hilen),
        List.getElem_set_ne (fun hc2 => hc hc2.symm),
        ← List.getD_eq_getElem st.entriesOpt none hilen, inv.eo_eq i hi]
      by_cases hem2 : i ∈ st.emitted
      · rw [if_pos hem2, if_pos ((hE'mem i).mpr (Or.inl hem2))]
      · rw [if_neg hem2, if_neg (by
          rw [hE'mem]
          rintro (h1 | h1)
          · exact hem2 h1
          · exact hc h1)]
  case res_eq =>
    rw [emitState_result, emitState_emitted, List.map_append, inv.res_eq, he]
    rfl
  case pan => rw [emitState_panicked]; exact inv.pan
  case trace_children =>
    rw [emitState_emitted]
    intro k hk i hi hedge
    rw [List.length_append, List.length_singleton] at hk
    by_cases hklt : k < st.emitted.length
    · rw [List.getD_append _ _ _ _ hklt] at hedge
      rw [List.take_append_of_le_length (Nat.le_of_lt hklt)]
      exact inv.trace_children k hklt i hi hedge
    · have hkeq : k = st.emitted.length := by omega
      subst hkeq
      rw [List.getD_append_right _ _ _ _ (Nat.le_refl _), Nat.sub_self] at hedge
      simp only [List.getD_cons_zero] at hedge
      rw [List.take_append_of_le_length (Nat.le_refl _), List.take_length]
      by_contra hc
      have := remEdges_zero_edge hready hi hc
      omega
  case trace_max =>
    rw [emitState_emitted]
    intro k hk w hw hwtk hwrem
    rw [List.length_append, List.length_singleton] at hk
    by_cases hklt : k < st.emitted.length
    · rw [List.getD_append _ _ _ _ hklt]
      rw [List.take_append_of_le_length (Nat.le_of_lt hklt)] at hwtk hwrem
      exact inv.trace_max k hklt w hw hwtk hwrem
    · have hkeq : k = st.emitted.length := by omega
      subst hkeq
      rw [List.getD_append_right _ _ _ _ (Nat.le_refl _), Nat.sub_self]
      simp only [List.getD_cons_zero]
      rw [List.take_append_of_le_length (Nat.le_refl _), List.take_length] at hwtk hwrem
      have hwheap := inv.heap_comp w hw hwtk hwrem
      have hnotlt := popMax_not_lt hpop _ hwheap
      intro hlt
      exact hnotlt (Or.inl (hkey.symm ▸ hlt))

theorem stepFuel_inv (es : List LogEntry) :
    ∀ (fuel : Nat) (st : RState), Inv es st →
      Inv es (stepFuel es (es.map (·.is_working_copy)) fuel st) := by
  intro fuel
  induction fuel with
  | zero => intro st h; simpa [stepFuel] using h
  | succ fuel ih =>
    intro st h
    cases hpop : popMax st.heap with
    | none => rw [stepFuel_succ_none _ _ _ _ hpop]; exact h
    | some mr =>
      rcases mr with ⟨⟨p, idx⟩, rest⟩
      obtain ⟨hlt, hkey, hem, hready⟩ := h.heap_mem _ (popMax_mem hpop)
      have heo : st.entriesOpt.getD idx none = some (es.getD idx default) := by
        rw [h.eo_eq idx hlt, if_neg hem]
      rw [stepFuel_succ_emit _ _ fuel st p idx rest _ hpop hem heo]
      exact ih _ (emitState_inv h hpop heo)

theorem initState_counts (es : List LogEntry) : (initState es).counts = initCounts es := rfl

theorem initState_heap (es : List LogEntry) :
    (initState es).heap = initHeap (es.map (·.is_working_copy)) (initCounts es) := rfl

theorem initState_emitted (es : List LogEntry) : (initState es).emitted = [] := rfl

theorem initState_entriesOpt (es : List LogEntry) :
    (initState es).entriesOpt = es.map some := rfl

theorem initState_result (es : List LogEntry) : (initState es).result = [] := rfl

theorem initState_panicked (es : List LogEntry) : (initState es).panicked = false := rfl

theorem initState_inv (es : List LogEntry) : Inv es (initState es) := by
  constructor
  case counts_len => rw [initState_counts]; exact initCounts_length es
  case counts_eq =>
    intro j hj
    rw [initState_counts, initState_emitted]
    exact initCounts_getD es j hj
  case heap_mem =>
    intro pr hpr
    rw [initState_heap] at hpr
    obtain ⟨j, rfl, hjlen, hc⟩ := mem_initHeap.mp hpr
    have hj : j < es.length := by rw [initCounts_length es] at hjlen; exact hjlen
    refine ⟨hj, rfl, ?_, ?_⟩
    · rw [initState_emitted]; exact List.not_mem_nil _
    · rw [initState_emitted]
      show remEdges es [] j = 0
      rw [← initCounts_getD es j hj]
      exact hc
  case heap_nodup => rw [initState_heap]; exact initHeap_idx_nodup _ _
  case heap_comp =>
    intro j hj hjE hrem
    rw [initState_emitted] at hrem
    rw [initState_heap, mem_initHeap]
    refine ⟨j, rfl, by rw [initCounts_length es]; exact hj, ?_⟩
    rw [initCounts_getD es j hj]
    exact hrem
  case em_nodup => rw [initState_emitted]; exact List.nodup_nil
  case em_lt => rw [initState_emitted]; intro i hi; cases hi
  case eo_len => rw [initState_entriesOpt]; simp
  case eo_eq =>
    intro i hi
    rw [initState_entriesOpt, initState_emitted, if_neg (List.not_mem_nil i)]
    rw [List.getD_eq_getElem _ _ (by simpa using hi), List.getElem_map,
      List.getD_eq_getElem _ _ hi]
  case res_eq => rw [initState_result, initState_emitted]; rfl
  case pan => exact initState_panicked es
  case trace_children =>
    intro k hk
    rw [initState_emitted] at hk
    simp at hk
  case trace_max =>
    intro k hk
    rw [initState_emitted] at hk
    simp at hk

theorem runReorder_inv (es : List LogEntry) : Inv es (runReorder es) :=
  stepFuel_inv es _ _ (initState_inv es)

theorem runReorder_heap_nil (es : List LogEntry) : (runReorder es).heap = [] := by
  unfold runReorder
  exact stepFuel_drain es _ _ _ (Nat.le_refl _)

/-! ## Shape of the traversal output -/

theorem eo_eq_list (es : List LogEntry) :
    (runReorder es).entriesOpt = (List.range es.length).map
      (fun i => if i ∈ (runReorder es).emitted then none else some (es.getD i default)) := by
  have inv := runReorder_inv es
  apply List.ext_getElem
  · rw [inv.eo_len]; simp
  · intro n h1 h2
    have h1' : n < es.length := by rw [← inv.eo_len]; exact h1
    rw [List.getElem_map, List.getElem_range]
    have := inv.eo_eq n h1'
    rw [List.getD_eq_getElem _ _ h1] at this
    exact this

theorem filterMap_if_map {α : Type} (P : Nat → Prop) [DecidablePred P] (f : Nat → α) :
    ∀ (L : List Nat),
      ((L.map (fun i => if P i then none else some (f i))).filterMap id)
        = (L.filter (fun i => decide (¬ P i))).map f := by
  intro L
  induction L with
  | nil => rfl
  | cons i L ih =>
    by_cases h : P i
    · simp only [List.map_cons, if_pos h, List.filterMap_cons, id]
      rw [ih, List.filter_cons_of_neg (by simp [h])]
    · simp only [List.map_cons, if_neg h, List.filterMap_cons, id]
      rw [ih, List.filter_cons_of_pos (by simp [h]), List.map_cons]

theorem runReorder_leftover (es : List LogEntry) :
    (runReorder es).entriesOpt.filterMap id
      = (leftIdx es).map (fun i => es.getD i default) := by
  rw [eo_eq_list es]
  exact filterMap_if_map (fun i => i ∈ (runReorder es).emitted)
    (fun i => es.getD i default) (List.range es.length)

theorem perm_range_parts (es : List LogEntry) :
    (List.range es.length).Perm (permIdx es) := by
  have inv := runReorder_inv es
  have hnd1 : (emittedOf es).Nodup := inv.em_nodup
  have hnd2 : (leftIdx es).Nodup := (List.nodup_range _).filter _
  have hdisj : (emittedOf es).Disjoint (leftIdx es) := by
    intro a ha hb
    unfold leftIdx at hb
    have hmf := List.mem_filter.mp hb
    rw [decide_eq_true_eq] at hmf
    exact hmf.2 ha
  apply List.perm_of_nodup_nodup_toFinset_eq (List.nodup_range _) (hnd1.append hnd2 hdisj)
  ext i
  simp only [List.mem_toFinset, List.mem_range, permIdx, List.mem_append, leftIdx,
    List.mem_filter, decide_eq_true_eq, emittedOf]
  constructor
  · intro hi
    by_cases hE : i ∈ (runReorder es).emitted
    · exact Or.inl hE
    · exact Or.inr ⟨hi, hE⟩
  · rintro (hE | ⟨hi, _⟩)
    · exact inv.em_lt i hE
    · exact hi

theorem emitted_short (es : List LogEntry) (h : es.length ≤ 1) :
    emittedOf es = [] ∨ (emittedOf es = [0] ∧ es.length = 1) := by
  have inv := runReorder_inv es
  cases hE : (runReorder es).emitted with
  | nil => exact Or.inl (by rw [emittedOf, hE])
  | cons a t =>
    have ha : a < es.length := inv.em_lt a (by rw [hE]; exact List.mem_cons_self _ _)
    have ha0 : a = 0 := by omega
    have hl1 : es.length = 1 := by omega
    have ht : t = [] := by
      cases t with
      | nil => rfl
      | cons b t2 =>
        have hb : b < es.length := inv.em_lt b (by rw [hE]; simp)
        have hb0 : b = 0 := by omega
        have hx := inv.em_nodup
        rw [hE, ha0, hb0] at hx
        simp at hx
    refine Or.inr ⟨?_, hl1⟩
    rw [emittedOf, hE, ha0, ht]

theorem singleton_of_length_one {es : List LogEntry} (h : es.length = 1) :
    es = [es.getD 0 default] := by
  cases es with
  | nil => simp at h
  | cons a t =>
    cases t with
    | nil => rfl
    | cons b t2 => simp at h

theorem reorder_eq_parts (es : List LogEntry) :
    reorder_entries_for_graph es = (permIdx es).map (fun i => es.getD i default) := by
  unfold reorder_entries_for_graph
  by_cases hle : es.length ≤ 1
  · rw [if_pos hle]
    rcases emitted_short es hle with hE | ⟨hE, hlen⟩
    · have hleft : leftIdx es = List.range es.length := by
        unfold leftIdx
        apply List.filter_eq_self.mpr
        intro a _
        rw [show (runReorder es).emitted = emittedOf es from rfl, hE]
        simp
      rw [permIdx, hE, hleft, List.nil_append, map_getD_range]
    · have hleft : leftIdx es = [] := by
        unfold leftIdx
        rw [hlen, show (runReorder es).emitted = emittedOf es from rfl, hE]
        simp [List.range_succ]
      rw [permIdx, hE, hleft, List.append_nil, List.map_singleton]
      exact singleton_of_length_one hlen
  · rw [if_neg hle]
    rw [(runReorder_inv es).res_eq, runReorder_leftover]
    show _ = (emittedOf es ++ leftIdx es).map _
    rw [List.map_append]
    rfl

theorem reorder_perm (es : List LogEntry) : (reorder_entries_for_graph es).Perm es := by
  rw [reorder_eq_parts]
  have h := (perm_range_parts es).map (fun i => es.getD i default)
  rw [map_getD_range] at h
  exact h.symm

theorem reorder_length (es : List LogEntry) :
    (reorder_entries_for_graph es).length = es.length :=
  (reorder_perm es).length_eq

theorem build_graph_rows_aux_length (es : List LogEntry) :
    ∀ (pending : List LogEntry) (lanes : List String),
      (buildGraphAux es lanes pending).length = pending.length := by
  intro pending
  induction pending with
  | nil => intro lanes; rfl
  | cons e rest ih =>
    intro lanes
    simp only [buildGraphAux, List.length_cons]
    rw [ih]

/-- C2: on every input batch — cyclic, partially connected or with
duplicate ids — the sequencer returns a permutation of the input, the
output is the emitted entries followed by the never-emitted leftovers, and
the leftovers keep their original relative order (they form a sublist of
the input). -/
theorem C2_sequence_permutation (records : List LogEntry) :
    (reorder_entries_for_graph records).Perm records ∧
    reorder_entries_for_graph records
      = (runReorder records).result ++ (runReorder records).entriesOpt.filterMap id ∧
    ((runReorder records).entriesOpt.filterMap id).Sublist records := by
  refine ⟨reorder_perm records, ?_, ?_⟩
  · rw [reorder_eq_parts, (runReorder_inv records).res_eq, runReorder_leftover]
    show (emittedOf records ++ leftIdx records).map _ = _
    rw [List.map_append]
    rfl
  · rw [runReorder_leftover]
    have h1 : (leftIdx records).Sublist (List.range records.length) :=
      List.filter_sublist _
    have h2 := h1.map (fun i => records.getD i default)
    rw [map_getD_range] at h2
    exact h2

/-- C7: the composed pipeline produces exactly one row per input record. -/
theorem C7_row_count (records : List LogEntry) :
    (build_graph_rows (reorder_entries_for_graph records)).length = records.length := by
  unfold build_graph_rows
  rw [build_graph_rows_aux_length, reorder_length]

/-- C8: both components are total — the traversal's unwrap-panic path is
never reachable, the priority queue is fully drained by the loop (the loop
terminates normally), and the layout produces one row per record of any
input. -/
theorem C8_totality (records : List LogEntry) :
    (runReorder records).panicked = false ∧
    (runReorder records).heap = [] ∧
    (build_graph_rows records).length = records.length := by
  refine ⟨(runReorder_inv records).pan, runReorder_heap_nil records, ?_⟩
  unfold build_graph_rows
  rw [build_graph_rows_aux_length]

/-! ## Checked-out priority (claim C3) -/

theorem wcs_getD (es : List LogEntry) {idx : Nat} (h : idx < es.length) :
    (es.map (·.is_working_copy)).getD idx false
      = (es.getD idx default).is_working_copy := by
  rw [List.getD_eq_getElem _ _ (by simpa using h), List.getElem_map,
    List.getD_eq_getElem _ _ h]

theorem head_remEdges_nil (es : List LogEntry) (i : Nat) (hi : i < es.length)
    (hhead : ∀ e ∈ es, (es.getD i default).commit_id_full ∉ e.parent_commit_ids) :
    remEdges es [] i = 0 := by
  rw [remEdges_nil]
  rw [Finset.sum_eq_zero_iff]
  intro k hk
  rw [Finset.mem_range] at hk
  by_contra hc
  have hpos : 0 < edgeTo es k i := by omega
  unfold edgeTo at hpos
  rw [List.countP_pos] at hpos
  obtain ⟨pid, hpid, hdec⟩ := hpos
  rw [decide_eq_true_eq] at hdec
  obtain ⟨_, hid⟩ := idToIdx_some hdec
  have hmem : es.getD k default ∈ es := by
    rw [List.getD_eq_getElem _ _ hk]
    exact List.getElem_mem _
  exact hhead (es.getD k default) hmem (hid ▸ hpid)

/-- C3: if exactly one record is flagged checked-out and no record in the
batch (including itself) names it as a parent, it is the first element of
the sequencer's output. -/
theorem C3_checked_out_first (es : List LogEntry) (i : Nat) (hi : i < es.length)
    (hwc : (es.getD i default).is_working_copy = true)
    (huniq : ∀ j, j < es.length → (es.getD j default).is_working_copy = true → j = i)
    (hhead : ∀ e ∈ es, (es.getD i default).commit_id_full ∉ e.parent_commit_ids) :
    (reorder_entries_for_graph es).head? = some (es.getD i default) := by
  have hrem : remEdges es [] i = 0 := head_remEdges_nil es i hi hhead
  have hcnt0 : (initCounts es).getD i 0 = 0 := by
    rw [initCounts_getD es i hi]; exact hrem
  unfold reorder_entries_for_graph
  by_cases hle : es.length ≤ 1
  · rw [if_pos hle]
    have hlen : es.length = 1 := by omega
    have hi0 : i = 0 := by omega
    rw [singleton_of_length_one hlen]
    rw [hi0] at *
    rfl
  · rw [if_neg hle]
    have hmem : (mkPrio (es.map (·.is_working_copy)) i, i) ∈ (initState es).heap := by
      rw [initState_heap, mem_initHeap]
      exact ⟨i, rfl, by rw [initCounts_length es]; exact hi, hcnt0⟩
    have hpop : ∃ rest, popMax (initState es).heap
        = some ((mkPrio (es.map (·.is_working_copy)) i, i), rest) := by
      cases hp : popMax (initState es).heap with
      | none =>
        rw [popMax_eq_none] at hp
        rw [hp] at hmem
        cases hmem
      | some mr =>
        rcases mr with ⟨⟨p, idx⟩, rest⟩
        obtain ⟨hidxlt, hkey, _, _⟩ := (initState_inv es).heap_mem _ (popMax_mem hp)
        replace hidxlt : idx < es.length := hidxlt
        replace hkey : p = mkPrio (es.map (·.is_working_copy)) idx := hkey
        by_cases hii : idx = i
        · subst hii
          exact ⟨rest, by rw [hkey]⟩
        · exfalso
          have hwcidx : (es.getD idx default).is_working_copy = false := by
            by_contra hc
            rw [Bool.not_eq_false] at hc
            exact hii (huniq idx hidxlt hc)
          have hlt : heapLt (p, idx) (mkPrio (es.map (·.is_working_copy)) i, i) := by
            refine Or.inl ?_
            rw [hkey]
            refine Or.inl ⟨?_, ?_⟩
            · show (es.map (·.is_working_copy)).getD idx false = false
              rw [wcs_getD es hidxlt]; exact hwcidx
            · show (es.map (·.is_working_copy)).getD i false = true
              rw [wcs_getD es hi]; exact hwc
          exact popMax_not_lt hp _ hmem hlt
    obtain ⟨rest, hpop⟩ := hpop
    have hfuelpos : 0 < (initState es).counts.sum + (initState es).heap.length := by
      have hne : (initState es).heap ≠ [] := by
        intro hc; rw [hc] at hmem; cases hmem
      have := List.length_pos.mpr hne
      omega
    obtain ⟨f, hf⟩ : ∃ f, (initState es).counts.sum + (initState es).heap.length
        = f + 1 := ⟨(initState es).counts.sum + (initState es).heap.length - 1, by omega⟩
    have hem : i ∉ (initState es).emitted := by
      rw [initState_emitted]; exact List.not_mem_nil _
    have heo : (initState es).entriesOpt.getD i none = some (es.getD i default) := by
      rw [(initState_inv es).eo_eq i hi, if_neg hem]
    have hrun : runReorder es
        = stepFuel es (es.map (·.is_working_copy)) (f + 1) (initState es) := by
      rw [runReorder, hf]
    rw [stepFuel_succ_emit _ _ f (initState es) _ i rest _ hpop hem heo] at hrun
    obtain ⟨t, ht⟩ := stepFuel_result_prefix es (es.map (·.is_working_copy)) f
      (emitState es (es.map (·.is_working_copy)) (initState es) i rest (es.getD i default))
    rw [hrun, ht, emitState_result, initState_result, List.nil_append]
    rw [List.head?_append, List.head?_append]
    rfl

/-- Witness for C3: in the sibling-heads batch, `y` is the only checked-out
record, is a head, and the sequencer puts it first. -/
theorem C3_checked_out_first_witness :
    (1 < siblingHeadsInput.length ∧
      (siblingHeadsInput.getD 1 default).is_working_copy = true ∧
      (∀ j, j < siblingHeadsInput.length →
        (siblingHeadsInput.getD j default).is_working_copy = true → j = 1) ∧
      (∀ e ∈ siblingHeadsInput,
        (siblingHeadsInput.getD 1 default).commit_id_full ∉ e.parent_commit_ids)) ∧
    (reorder_entries_for_graph siblingHeadsInput).head?
      = some (siblingHeadsInput.getD 1 default) :=
  ⟨⟨by decide, by decide, by decide, by decide⟩,
    C3_checked_out_first siblingHeadsInput 1 (by decide) (by decide) (by decide)
      (by decide)⟩

/-! ## Topological invariant under acyclicity (claim C1) -/

theorem runReorder_stuck (es : List LogEntry) :
    ∀ j, j < es.length → j ∉ (runReorder es).emitted →
      0 < remEdges es (runReorder es).emitted j := by
  intro j hj hjE
  by_contra hc
  push_neg at hc
  have h0 : remEdges es (runReorder es).emitted j = 0 := by omega
  have hm := (runReorder_inv es).heap_comp j hj hjE h0
  rw [runReorder_heap_nil] at hm
  cases hm

theorem exists_cycle_of_pred (T : Finset Nat) (r : Nat → Nat → Prop)
    (hne : T.Nonempty) (h : ∀ j ∈ T, ∃ i ∈ T, r i j) :
    ∃ x, Relation.TransGen r x x := by
  choose f hfT hfr using h
  obtain ⟨j0, hj0⟩ := hne
  let seq : Nat → {x // x ∈ T} := fun n =>
    Nat.rec ⟨j0, hj0⟩ (fun _ prev => ⟨f prev.1 prev.2, hfT prev.1 prev.2⟩) n
  have hstep : ∀ n, r (seq (n + 1)).1 (seq n).1 := fun n => hfr (seq n).1 (seq n).2
  have hchain : ∀ d k, Relation.TransGen r (seq (k + d + 1)).1 (seq k).1 := by
    intro d
    induction d with
    | zero => intro k; exact Relation.TransGen.single (hstep k)
    | succ d ih =>
      intro k
      have hs : r (seq (k + d + 1 + 1)).1 (seq (k + d + 1)).1 := hstep (k + d + 1)
      have : Relation.TransGen r (seq (k + d + 1 + 1)).1 (seq k).1 :=
        Relation.TransGen.head hs (ih k)
      have harith : k + (d + 1) + 1 = k + d + 1 + 1 := by omega
      rw [harith]
      exact this
  have hcard : Fintype.card {x // x ∈ T} < Fintype.card (Fin (T.card + 1)) := by
    rw [Fintype.card_coe, Fintype.card_fin]
    omega
  obtain ⟨x, y, hxy, heq⟩ :=
    Fintype.exists_ne_map_eq_of_card_lt (fun (a : Fin (T.card + 1)) => seq a.1) hcard
  rcases Nat.lt_or_ge x.1 y.1 with hlt | hge
  · obtain ⟨d, hd⟩ : ∃ d, y.1 = x.1 + d + 1 := ⟨y.1 - x.1 - 1, by omega⟩
    refine ⟨(seq y.1).1, ?_⟩
    have := hchain d x.1
    rw [← hd, heq] at this
    exact this
  · have hlt2 : y.1 < x.1 := by
      rcases Nat.lt_or_ge y.1 x.1 with h2 | h2
      · exact h2
      · exact absurd (Fin.val_injective (by omega)) hxy
    obtain ⟨d, hd⟩ : ∃ d, x.1 = y.1 + d + 1 := ⟨x.1 - y.1 - 1, by omega⟩
    refine ⟨(seq x.1).1, ?_⟩
    have := hchain d y.1
    rw [← hd, ← heq] at this
    exact this

theorem emitted_complete (es : List LogEntry) (hac : Acyclic es) :
    ∀ j, j < es.length → j ∈ (runReorder es).emitted := by
  by_contra hc
  push_neg at hc
  obtain ⟨j0, hj0, hj0E⟩ := hc
  have hne : ((Finset.range es.length).filter
      (fun i => i ∉ (runReorder es).emitted)).Nonempty :=
    ⟨j0, by simp [Finset.mem_filter, hj0, hj0E]⟩
  have hpred : ∀ j ∈ (Finset.range es.length).filter
      (fun i => i ∉ (runReorder es).emitted),
      ∃ i ∈ (Finset.range es.length).filter (fun i => i ∉ (runReorder es).emitted),
        recEdge es i j := by
    intro j hj
    rw [Finset.mem_filter, Finset.mem_range] at hj
    obtain ⟨i, hi, hiE, hie⟩ := remEdges_pos_exists (runReorder_stuck es j hj.1 hj.2)
    refine ⟨i, by simp [Finset.mem_filter, hi, hiE], ?_⟩
    unfold edgeTo at hie
    rw [List.countP_pos] at hie
    obtain ⟨pid, hpid, hdec⟩ := hie
    rw [decide_eq_true_eq] at hdec
    obtain ⟨hjlen, hid⟩ := idToIdx_some hdec
    exact ⟨hi, hjlen, hid ▸ hpid⟩
  obtain ⟨x, hx⟩ := exists_cycle_of_pred _ (recEdge es) hne hpred
  exact hac x hx

theorem edgeTo_pos_of_recEdge {es : List LogEntry}
    (hnd : (es.map (·.commit_id_full)).Nodup) {a b : Nat} (h : recEdge es a b) :
    0 < edgeTo es a b := by
  obtain ⟨ha, hb, hmem⟩ := h
  unfold edgeTo
  rw [List.countP_pos]
  exact ⟨_, hmem, by rw [decide_eq_true_eq]; exact idToIdx_eq_of_nodup hnd hb⟩

theorem nodup_take_pos {α : Type} {l : List α} (hnd : l.Nodup)
    {k a : Nat} (ha : a < l.length) (h : l[a] ∈ l.take k) : a < k := by
  rw [List.mem_take_iff_getElem] at h
  obtain ⟨i, hi, hieq⟩ := h
  have hik : i < k := lt_of_lt_of_le hi (min_le_left _ _)
  have : i = a := (hnd.getElem_inj_iff).mp hieq
  omega

/-- C1 (amended): on batches with pairwise-distinct commit ids and an
acyclic parent relation, the sequencer emits every record with its in-batch
children strictly before their parents. -/
theorem C1_amended (es : List LogEntry)
    (hnd : (es.map (·.commit_id_full)).Nodup) (hac : Acyclic es) :
    ChildBeforeParent (reorder_entries_for_graph es) := by
  intro a b ha hb hmem
  have inv := runReorder_inv es
  have hEall := emitted_complete es hac
  have hleft : leftIdx es = [] := by
    unfold leftIdx
    rw [List.filter_eq_nil_iff]
    intro x hx
    rw [List.mem_range] at hx
    simp only [decide_eq_true_eq, Decidable.not_not]
    exact hEall x hx
  have hre : reorder_entries_for_graph es
      = (emittedOf es).map (fun i => es.getD i default) := by
    rw [reorder_eq_parts]
    show (emittedOf es ++ leftIdx es).map _ = _
    rw [hleft, List.append_nil]
  have hElen : (emittedOf es).length = es.length := by
    have h1 := reorder_length es
    rw [hre, List.length_map] at h1
    exact h1
  rw [reorder_length] at ha hb
  have ha' : a < (emittedOf es).length := by omega
  have hb' : b < (emittedOf es).length := by omega
  have hgetD : ∀ x, x < (emittedOf es).length →
      (reorder_entries_for_graph es).getD x default
        = es.getD ((emittedOf es).getD x 0) default := by
    intro x hx
    rw [hre, List.getD_eq_getElem _ _ (by simpa using hx), List.getElem_map,
      List.getD_eq_getElem (emittedOf es) 0 hx]
  rw [hgetD a ha', hgetD b hb'] at hmem
  have hEa : (emittedOf es).getD a 0 < es.length := by
    apply inv.em_lt
    rw [List.getD_eq_getElem (emittedOf es) 0 ha']
    exact List.getElem_mem _
  have hEb : (emittedOf es).getD b 0 < es.length := by
    apply inv.em_lt
    rw [List.getD_eq_getElem (emittedOf es) 0 hb']
    exact List.getElem_mem _
  have hrec : recEdge es ((emittedOf es).getD a 0) ((emittedOf es).getD b 0) :=
    ⟨hEa, hEb, hmem⟩
  have hpos := edgeTo_pos_of_recEdge hnd hrec
  have htk := inv.trace_children b hb' ((emittedOf es).getD a 0) hEa hpos
  rw [List.getD_eq_getElem (emittedOf es) 0 ha'] at htk
  exact nodup_take_pos inv.em_nodup ha' htk

theorem recEdge_chain : ∀ a b, recEdge chainInput a b → a = 0 ∧ b = 1 := by
  intro a b h
  obtain ⟨ha, hb, hmem⟩ := h
  have ha2 : a < 2 := ha
  have hb2 : b < 2 := hb
  interval_cases a <;> interval_cases b <;> revert hmem <;> decide

theorem chain_acyclic : Acyclic chainInput := by
  intro i hi
  have key : ∀ x y, Relation.TransGen (recEdge chainInput) x y → x = 0 ∧ y = 1 := by
    intro x y h
    induction h with
    | single h1 => exact recEdge_chain _ _ h1
    | tail h1 h2 ih =>
      obtain ⟨hb0, _⟩ := recEdge_chain _ _ h2
      omega
  have := key i i hi
  omega

/-- Witness for the amended C1: the two-record chain `A→B` has distinct
ids and no cycle, and the sequencer's output places every child before its
in-batch parent. -/
theorem C1_amended_witness :
    ((chainInput.map (·.commit_id_full)).Nodup ∧ Acyclic chainInput) ∧
    ChildBeforeParent (reorder_entries_for_graph chainInput) :=
  ⟨⟨by decide, chain_acyclic⟩, C1_amended chainInput (by decide) chain_acyclic⟩

/-! ## Cell-kind structure of rows (claim C10) -/

theorem kindsEq_refl (a : List Cell2) : KindsEq a a := ⟨rfl, fun _ => ⟨rfl, rfl⟩⟩

theorem kindsEq_trans {a b c : List Cell2} (h1 : KindsEq a b) (h2 : KindsEq b c) :
    KindsEq a c :=
  ⟨h1.1.trans h2.1, fun m => ⟨(h1.2 m).1.trans (h2.2 m).1, (h1.2 m).2.trans (h2.2 m).2⟩⟩

theorem kindsEq_set_kindpreserving (cells : List Cell2) (i : Nat) (c : Cell2)
    (hl : c.kind_left = (cells.getD i default).kind_left)
    (hr : c.kind_right = (cells.getD i default).kind_right) :
    KindsEq cells (cells.set i c) := by
  refine ⟨(List.length_set cells i c).symm, ?_⟩
  intro m
  by_cases hm : m < cells.length
  · by_cases him : i = m
    · subst him
      rw [List.getD_eq_getElem (cells.set i c) _ (by simpa using hm),
        List.getElem_set_self]
      exact ⟨hl.symm, hr.symm⟩
    · rw [List.getD_eq_getElem (cells.set i c) _ (by simpa using hm),
        List.getElem_set_ne him, ← List.getD_eq_getElem cells default hm]
      exact ⟨rfl, rfl⟩
  · rw [List.getD_eq_default _ _ (Nat.le_of_not_lt hm),
      List.getD_eq_default _ _ (by simpa using Nat.le_of_not_lt hm)]
    exact ⟨rfl, rfl⟩

theorem kindsEq_foldl {β : Type} (g : List Cell2 → β → List Cell2)
    (hg : ∀ cs x, KindsEq cs (g cs x)) :
    ∀ (L : List β) (cs : List Cell2), KindsEq cs (L.foldl g cs) := by
  intro L
  induction L with
  | nil => intro cs; exact kindsEq_refl cs
  | cons x L ih => intro cs; exact kindsEq_trans (hg cs x) (ih (g cs x))

theorem drawHorizontal_kinds (cells0 : List Cell2) (nl t rc : Nat) :
    KindsEq cells0 (drawHorizontal cells0 nl t rc) := by
  unfold drawHorizontal
  refine @kindsEq_trans cells0
    (if nl < cells0.length then
      cells0.set nl { cells0.getD nl default with right := '─' }
    else cells0) _ ?_ ?_
  · split
    · exact kindsEq_set_kindpreserving _ _ _ rfl rfl
    · exact kindsEq_refl _
  · apply kindsEq_foldl
    intro cs lane
    split
    · exact kindsEq_set_kindpreserving _ _ _ rfl rfl
    · exact kindsEq_refl _

theorem markCorners_kinds (ch : Char) (eps : List Nat) (cells : List Cell2) :
    KindsEq cells (markCorners ch eps cells) := by
  unfold markCorners
  apply kindsEq_foldl
  intro cs lane
  split
  · exact kindsEq_set_kindpreserving _ _ _ rfl rfl
  · exact kindsEq_refl _

theorem buildCells_kindsEq (entry : LogEntry) (nl rc lc : Nat) (seps conv : List Nat) :
    KindsEq (placeNode (initCells lc rc) nl entry) (buildCells entry nl rc lc seps conv) := by
  unfold buildCells
  cases h : (seps ++ conv).max? with
  | none => exact kindsEq_refl _
  | some target =>
    show KindsEq (placeNode (initCells lc rc) nl entry)
      (if nl < target ∧ nl < (placeNode (initCells lc rc) nl entry).length then
        markCorners '┘' conv
          (markCorners '┐' seps
            (drawHorizontal (placeNode (initCells lc rc) nl entry) nl target rc))
      else placeNode (initCells lc rc) nl entry)
    by_cases hc : nl < target ∧ nl < (placeNode (initCells lc rc) nl entry).length
    · rw [if_pos hc]
      exact kindsEq_trans
        (kindsEq_trans (drawHorizontal_kinds _ nl target rc)
          (markCorners_kinds '┐' seps _))
        (markCorners_kinds '┘' conv _)
    · rw [if_neg hc]
      exact kindsEq_refl _

theorem initCells_length (lc rc : Nat) : (initCells lc rc).length = lc := by
  unfold initCells
  simp

theorem initCells_kind (lc rc m : Nat) (hm : m < lc) :
    ((initCells lc rc).getD m default).kind_left = CellKind.Lane m ∧
    ((initCells lc rc).getD m default).kind_right = CellKind.Lane m := by
  unfold initCells
  rw [List.getD_eq_getElem _ _ (by simpa using hm), List.getElem_map, List.getElem_range]
  exact ⟨rfl, rfl⟩

theorem placeNode_length (cells : List Cell2) (nl : Nat) (e : LogEntry) :
    (placeNode cells nl e).length = cells.length := by
  unfold placeNode
  split <;> simp

theorem placeNode_kind_at (cells : List Cell2) (nl : Nat) (e : LogEntry)
    (h : nl < cells.length) :
    ((placeNode cells nl e).getD nl default).kind_left
      = CellKind.Node e.is_working_copy e.is_immutable ∧
    ((placeNode cells nl e).getD nl default).kind_right
      = (cells.getD nl default).kind_right := by
  unfold placeNode
  rw [if_pos h, List.getD_eq_getElem _ _ (by simpa using h), List.getElem_set_self]
  exact ⟨rfl, rfl⟩

theorem placeNode_getD_ne (cells : List Cell2) (nl : Nat) (e : LogEntry)
    (m : Nat) (hne : nl ≠ m) :
    (placeNode cells nl e).getD m default = cells.getD m default := by
  unfold placeNode
  split
  · by_cases hm : m < cells.length
    · rw [List.getD_eq_getElem _ _ (by simpa using hm), List.getElem_set_ne hne,
        List.getD_eq_getElem _ _ hm]
    · rw [List.getD_eq_default _ _ (by simpa using Nat.le_of_not_lt hm),
        List.getD_eq_default _ _ (Nat.le_of_not_lt hm)]
  · rfl

theorem buildCells_length (entry : LogEntry) (nl rc lc : Nat) (seps conv : List Nat) :
    (buildCells entry nl rc lc seps conv).length = lc := by
  have h := (buildCells_kindsEq entry nl rc lc seps conv).1
  rw [← h, placeNode_length, initCells_length]

theorem buildCells_kind_left_node (entry : LogEntry) (nl rc lc : Nat)
    (seps conv : List Nat) (h : nl < lc) :
    ((buildCells entry nl rc lc seps conv).getD nl default).kind_left
      = CellKind.Node entry.is_working_copy entry.is_immutable := by
  have hk := ((buildCells_kindsEq entry nl rc lc seps conv).2 nl).1
  rw [← hk]
  exact (placeNode_kind_at (initCells lc rc) nl entry (by rw [initCells_length]; exact h)).1

theorem buildCells_kind_left_lane (entry : LogEntry) (nl rc lc : Nat)
    (seps conv : List Nat) (m : Nat) (hm : m < lc) (hne : m ≠ nl) :
    ((buildCells entry nl rc lc seps conv).getD m default).kind_left
      = CellKind.Lane m := by
  have hk := ((buildCells_kindsEq entry nl rc lc seps conv).2 m).1
  rw [← hk, placeNode_getD_ne _ _ _ _ (fun hc => hne hc.symm)]
  exact (initCells_kind lc rc m hm).1

theorem buildCells_kind_right (entry : LogEntry) (nl rc lc : Nat)
    (seps conv : List Nat) (m : Nat) (hm : m < lc) :
    ((buildCells entry nl rc lc seps conv).getD m default).kind_right
      = CellKind.Lane m := by
  have hk := ((buildCells_kindsEq entry nl rc lc seps conv).2 m).2
  rw [← hk]
  by_cases hne : nl = m
  · subst hne
    rw [(placeNode_kind_at (initCells lc rc) nl entry
      (by rw [initCells_length]; exact hm)).2]
    exact (initCells_kind lc rc nl hm).2
  · rw [placeNode_getD_ne _ _ _ _ hne]
    exact (initCells_kind lc rc m hm).2

theorem le_maxEndpoint (lc : Nat) (eps : List Nat) : lc ≤ maxEndpoint lc eps := by
  unfold maxEndpoint
  cases h : eps.max? with
  | none => exact Nat.le_refl _
  | some m => exact le_max_left _ _

theorem nodeLane_lt_laneCount (es : List LogEntry) (lanes0 : List String)
    (entry : LogEntry) :
    nodeLaneOf lanes0 entry.commit_id_full < laneCountOf es lanes0 entry := by
  unfold laneCountOf
  have h1 : nodeLaneOf lanes0 entry.commit_id_full + 1
      ≤ max (lanes3Of es lanes0 entry).length
          (nodeLaneOf lanes0 entry.commit_id_full + 1) := le_max_right _ _
  have h2 := le_maxEndpoint
    (max (lanes3Of es lanes0 entry).length (nodeLaneOf lanes0 entry.commit_id_full + 1))
    (splitEndpointsOf es lanes0 entry)
  have h3 := le_maxEndpoint
    (maxEndpoint
      (max (lanes3Of es lanes0 entry).length (nodeLaneOf lanes0 entry.commit_id_full + 1))
      (splitEndpointsOf es lanes0 entry))
    (convergeOf es lanes0 entry)
  omega

theorem graphStep_row_cells (es : List LogEntry) (lanes0 : List String)
    (entry : LogEntry) :
    (graphStep es lanes0 entry).2.cells
      = buildCells entry (nodeLaneOf lanes0 entry.commit_id_full)
          (lanes1Of lanes0 entry.commit_id_full).length (laneCountOf es lanes0 entry)
          (splitEndpointsOf es lanes0 entry) (convergeOf es lanes0 entry) := rfl

theorem graphStep_row_node_lane (es : List LogEntry) (lanes0 : List String)
    (entry : LogEntry) :
    (graphStep es lanes0 entry).2.node_lane
      = nodeLaneOf lanes0 entry.commit_id_full := rfl

theorem buildGraphAux_getD (es : List LogEntry) :
    ∀ (pending : List LogEntry) (lanes : List String) (k : Nat), k < pending.length →
      (buildGraphAux es lanes pending).getD k default
        = (graphStep es (lanesAfter es lanes (pending.take k))
            (pending.getD k default)).2 := by
  intro pending
  induction pending with
  | nil => intro lanes k hk; simp at hk
  | cons e rest ih =>
    intro lanes k hk
    cases k with
    | zero =>
      show ((graphStep es lanes e).2 :: buildGraphAux es (graphStep es lanes e).1 rest).getD
          0 default = _
      rw [List.getD_cons_zero]
      rfl
    | succ k =>
      show ((graphStep es lanes e).2 :: buildGraphAux es (graphStep es lanes e).1 rest).getD
          (k + 1) default = _
      rw [List.getD_cons_succ]
      rw [ih (graphStep es lanes e).1 k (by simpa using hk)]
      rfl

/-- C10: in every row of `build_graph_rows`, the node lane is in bounds,
the left half of the node-lane cell is the unique `Node`-tagged half and it
carries exactly the corresponding record's flags, and every other cell half
is `Lane`-tagged (with its own lane index). -/
theorem C10_node_cell (es : List LogEntry) (k : Nat)
    (hk : k < (build_graph_rows es).length) :
    ((build_graph_rows es).getD k default).node_lane
        < ((build_graph_rows es).getD k default).cells.length ∧
    (((build_graph_rows es).getD k default).cells.getD
        ((build_graph_rows es).getD k default).node_lane default).kind_left
      = CellKind.Node (es.getD k default).is_working_copy
          (es.getD k default).is_immutable ∧
    (∀ m, m < ((build_graph_rows es).getD k default).cells.length →
      m ≠ ((build_graph_rows es).getD k default).node_lane →
      (((build_graph_rows es).getD k default).cells.getD m default).kind_left
        = CellKind.Lane m) ∧
    (∀ m, m < ((build_graph_rows es).getD k default).cells.length →
      (((build_graph_rows es).getD k default).cells.getD m default).kind_right
        = CellKind.Lane m) := by
  have hk' : k < es.length := by
    rw [build_graph_rows, build_graph_rows_aux_length] at hk
    exact hk
  have hrow : (build_graph_rows es).getD k default
      = (graphStep es (lanesAfter es [] (es.take k)) (es.getD k default)).2 :=
    buildGraphAux_getD es es [] k hk'
  rw [hrow, graphStep_row_cells, graphStep_row_node_lane, buildCells_length]
  refine ⟨nodeLane_lt_laneCount _ _ _, ?_, ?_, ?_⟩
  · exact buildCells_kind_left_node _ _ _ _ _ _ (nodeLane_lt_laneCount _ _ _)
  · intro m hm hne
    exact buildCells_kind_left_lane _ _ _ _ _ _ m hm hne
  · intro m hm
    exact buildCells_kind_right _ _ _ _ _ _ m hm

/-- Witness for C10 at the first row of the merge batch. -/
theorem C10_node_cell_witness :
    0 < (build_graph_rows mergeInput).length ∧
    ((build_graph_rows mergeInput).getD 0 default).node_lane
        < ((build_graph_rows mergeInput).getD 0 default).cells.length ∧
    (((build_graph_rows mergeInput).getD 0 default).cells.getD
        ((build_graph_rows mergeInput).getD 0 default).node_lane default).kind_left
      = CellKind.Node (mergeInput.getD 0 default).is_working_copy
          (mergeInput.getD 0 default).is_immutable :=
  ⟨by decide, (C10_node_cell mergeInput 0 (by decide)).1,
    (C10_node_cell mergeInput 0 (by decide)).2.1⟩

/-! ## Lane-table convergence removal (claim C4) -/

theorem lanePos_some {cid : String} : ∀ {lanes : List String} {p : Nat},
    lanePos cid lanes = some p →
    p < lanes.length ∧ lanes.getD p "" = cid ∧
      ∀ q, q < p → lanes.getD q "" ≠ cid := by
  intro lanes
  induction lanes with
  | nil => intro p h; simp [lanePos] at h
  | cons x xs ih =>
    intro p h
    unfold lanePos at h
    by_cases hx : x = cid
    · rw [if_pos hx] at h
      obtain rfl : 0 = p := Option.some.inj h
      refine ⟨by simp, by simpa using hx, ?_⟩
      intro q hq
      omega
    · rw [if_neg hx] at h
      cases hxs : lanePos cid xs with
      | none => rw [hxs] at h; simp at h
      | some p' =>
        rw [hxs] at h
        simp only [Option.map_some'] at h
        obtain rfl : p' + 1 = p := Option.some.inj h
        obtain ⟨h1, h2, h3⟩ := ih hxs
        refine ⟨by simpa using h1, by simpa using h2, ?_⟩
        intro q hq
        cases q with
        | zero => simpa using hx
        | succ q =>
          rw [List.getD_cons_succ]
          exact h3 q (by omega)

theorem lanePos_none {cid : String} : ∀ {lanes : List String},
    lanePos cid lanes = none → ∀ x ∈ lanes, x ≠ cid := by
  intro lanes
  induction lanes with
  | nil => intro _ x hx; cases hx
  | cons y ys ih =>
    intro h x hx
    unfold lanePos at h
    by_cases hy : y = cid
    · rw [if_pos hy] at h; cases h
    · rw [if_neg hy] at h
      rcases List.mem_cons.mp hx with rfl | hx'
      · exact hy
      · cases hys : lanePos cid ys with
        | none => exact ih hys x hx'
        | some p => rw [hys] at h; simp at h

theorem lanes1_node (lanes : List String) (cid : String) :
    nodeLaneOf lanes cid < (lanes1Of lanes cid).length ∧
    (lanes1Of lanes cid).getD (nodeLaneOf lanes cid) "" = cid ∧
    ∀ q, q < nodeLaneOf lanes cid → (lanes1Of lanes cid).getD q "" ≠ cid := by
  unfold lanes1Of nodeLaneOf locateLane
  cases h : lanePos cid lanes with
  | some p =>
    obtain ⟨h1, h2, h3⟩ := lanePos_some h
    exact ⟨h1, h2, h3⟩
  | none =>
    refine ⟨by simp, by simp, ?_⟩
    intro q hq
    simp at hq

theorem mem_dupsOf {lanes : List String} {cid : String} {i : Nat} :
    i ∈ dupsOf lanes cid ↔
      i < (lanes1Of lanes cid).length ∧ nodeLaneOf lanes cid < i ∧
      (lanes1Of lanes cid).getD i "" = cid := by
  unfold dupsOf dupLanes
  rw [List.mem_filter, List.mem_range]
  simp only [Bool.and_eq_true, decide_eq_true_eq]

theorem dupsOf_pairwise (lanes : List String) (cid : String) :
    (dupsOf lanes cid).Pairwise (· < ·) := by
  unfold dupsOf dupLanes
  exact (List.pairwise_lt_range _).filter _

theorem insertParents_eq : ∀ (ps : List String) (pos : Nat) (l : List String),
    pos ≤ l.length →
    insertParents pos ps l = l.take pos ++ ps ++ l.drop pos := by
  intro ps
  induction ps with
  | nil => intro pos l h; simp [insertParents]
  | cons p rest ih =>
    intro pos l h
    show insertParents (pos + 1) rest (l.take pos ++ p :: l.drop pos) = _
    have hlen : pos + 1 ≤ (l.take pos ++ p :: l.drop pos).length := by
      rw [List.length_append, List.length_take, List.length_cons, List.length_drop]
      omega
    rw [ih (pos + 1) _ hlen]
    have htk : (l.take pos).length = pos := by
      rw [List.length_take]
      omega
    have h1 : (l.take pos ++ p :: l.drop pos).take (pos + 1) = l.take pos ++ [p] := by
      have := @List.take_append _ (l.take pos) (p :: l.drop pos) 1
      rw [htk] at this
      rw [this]
      rfl
    have h2 : (l.take pos ++ p :: l.drop pos).drop (pos + 1) = l.drop pos := by
      have := @List.drop_append _ (l.take pos) (p :: l.drop pos) 1
      rw [htk] at this
      rw [this]
      rfl
    rw [h1, h2]
    simp

theorem insertSorted_perm (x : Nat) : ∀ (l : List Nat),
    (insertSorted x l).Perm (x :: l) := by
  intro l
  induction l with
  | nil => exact List.Perm.refl _
  | cons y ys ih =>
    unfold insertSorted
    by_cases h : x ≤ y
    · rw [if_pos h]
    · rw [if_neg h]
      exact (ih.cons y).trans (List.Perm.swap x y ys)

theorem sortNat_perm : ∀ (l : List Nat), (sortNat l).Perm l := by
  intro l
  induction l with
  | nil => exact List.Perm.refl _
  | cons x xs ih =>
    show (insertSorted x (sortNat xs)).Perm (x :: xs)
    exact (insertSorted_perm x (sortNat xs)).trans (ih.cons x)

theorem insertSorted_sorted (x : Nat) : ∀ (l : List Nat),
    l.Pairwise (· ≤ ·) → (insertSorted x l).Pairwise (· ≤ ·) := by
  intro l
  induction l with
  | nil => intro _; simp [insertSorted]
  | cons y ys ih =>
    intro h
    obtain ⟨hy, hys⟩ := List.pairwise_cons.mp h
    unfold insertSorted
    by_cases hxy : x ≤ y
    · rw [if_pos hxy]
      refine List.pairwise_cons.mpr ⟨?_, h⟩
      intro b hb
      rcases List.mem_cons.mp hb with rfl | hb'
      · exact hxy
      · exact le_trans hxy (hy b hb')
    · rw [if_neg hxy]
      refine List.pairwise_cons.mpr ⟨?_, ih hys⟩
      intro b hb
      have hb2 := (insertSorted_perm x ys).mem_iff.mp hb
      rcases List.mem_cons.mp hb2 with rfl | hb'
      · omega
      · exact hy b hb'

theorem sortNat_sorted : ∀ (l : List Nat), (sortNat l).Pairwise (· ≤ ·) := by
  intro l
  induction l with
  | nil => simp [sortNat]
  | cons x xs ih => exact insertSorted_sorted x (sortNat xs) ih

theorem getD_eraseIdx_lt (l : List String) (d q : Nat) (hd : d < l.length)
    (hq : q < d) : (l.eraseIdx d).getD q "" = l.getD q "" := by
  rw [List.eraseIdx_eq_take_drop_succ]
  have htk : (l.take d).length = d := by rw [List.length_take]; omega
  rw [List.getD_append _ _ _ _ (by rw [htk]; exact hq)]
  by_cases hql : q < l.length
  · rw [List.getD_eq_getElem _ _ (by rw [List.length_take]; omega),
      List.getElem_take, List.getD_eq_getElem _ _ hql]
  · omega

theorem getD_eraseIdx_ge (l : List String) (d q : Nat) (hd : d < l.length)
    (hq : d ≤ q) (hql : q < l.length - 1) :
    (l.eraseIdx d).getD q "" = l.getD (q + 1) "" := by
  rw [List.eraseIdx_eq_take_drop_succ]
  have htk : (l.take d).length = d := by rw [List.length_take]; omega
  rw [List.getD_append_right _ _ _ _ (by rw [htk]; exact hq)]
  have hdrop : q - d < (l.drop (d + 1)).length := by
    rw [List.length_drop]
    omega
  rw [htk, List.getD_eq_getElem _ _ hdrop, List.getElem_drop,
    List.getD_eq_getElem l "" (show q + 1 < l.length by omega)]
  congr 1
  omega

theorem eraseFold_not_mem (cid : String) :
    ∀ (D : List Nat) (l : List String),
      D.Pairwise (· > ·) →
      (∀ d ∈ D, d < l.length) →
      (∀ q, q < l.length → (l.getD q "" = cid ↔ q ∈ D)) →
      cid ∉ D.foldl (fun l idx => if idx < l.length then l.eraseIdx idx else l) l := by
  intro D
  induction D with
  | nil =>
    intro l _ _ hocc hmem
    have hmem' : cid ∈ l := hmem
    obtain ⟨q, hq, hqv⟩ := List.getElem_of_mem hmem'
    have := (hocc q hq).mp (by rw [List.getD_eq_getElem _ _ hq]; exact hqv)
    cases this
  | cons d D ih =>
    intro l hpw hbound hocc
    obtain ⟨hdgt, hpw'⟩ := List.pairwise_cons.mp hpw
    have hd : d < l.length := hbound d (List.mem_cons_self _ _)
    show cid ∉ D.foldl _ (if d < l.length then l.eraseIdx d else l)
    rw [if_pos hd]
    have hlen : (l.eraseIdx d).length = l.length - 1 := by
      rw [List.length_eraseIdx, if_pos hd]
    apply ih (l.eraseIdx d) hpw'
    · intro x hx
      have := hdgt x hx
      rw [hlen]
      omega
    · intro q hq
      rw [hlen] at hq
      by_cases hqd : q < d
      · rw [getD_eraseIdx_lt l d q hd hqd]
        rw [hocc q (by omega)]
        constructor
        · intro hm0
          rcases List.mem_cons.mp hm0 with h1 | hm
          · exact absurd h1 (by omega)
          · exact hm
        · intro hm
          exact List.mem_cons_of_mem _ hm
      · rw [getD_eraseIdx_ge l d q hd (by omega) hq]
        rw [hocc (q + 1) (by omega)]
        constructor
        · intro hm0
          rcases List.mem_cons.mp hm0 with h1 | hm
          · exact absurd h1 (by omega)
          · exact absurd (hdgt _ hm) (by omega)
        · intro hm
          exact absurd (hdgt _ hm) hqd

theorem parentsOf_ne_cid {es : List LogEntry} {entry : LogEntry}
    (hself : entry.commit_id_full ∉ entry.parent_commit_ids) :
    ∀ x ∈ parentsOf es entry, x ≠ entry.commit_id_full := by
  intro x hx
  unfold parentsOf at hx
  have := (List.mem_filter.mp hx).1
  intro hc
  exact hself (hc ▸ this)

/-- C4 (amended): after the per-record processing of a commit that has at
least one in-batch parent and is not its own parent, no lane of the
resulting LaneTable holds the commit's identifier — in particular every
duplicate (convergence) occurrence has been removed. -/
theorem C4_amended (es : List LogEntry) (lanes : List String) (entry : LogEntry)
    (hpar : parentsOf es entry ≠ [])
    (hself : entry.commit_id_full ∉ entry.parent_commit_ids) :
    entry.commit_id_full ∉ (graphStep es lanes entry).1 := by
  obtain ⟨primary, others, hpo⟩ : ∃ p o, parentsOf es entry = p :: o := by
    cases h : parentsOf es entry with
    | nil => exact absurd h hpar
    | cons p o => exact ⟨p, o, rfl⟩
  have hsplit : splitCountOf es entry = others.length := by
    unfold splitCountOf
    rw [hpo]
  have hprim : primary ≠ entry.commit_id_full :=
    parentsOf_ne_cid hself primary (by rw [hpo]; exact List.mem_cons_self _ _)
  have hoth : ∀ x ∈ others, x ≠ entry.commit_id_full := fun x hx =>
    parentsOf_ne_cid hself x (by rw [hpo]; exact List.mem_cons_of_mem _ hx)
  obtain ⟨hnl, hnode, hmin⟩ := lanes1_node lanes entry.commit_id_full
  set cid := entry.commit_id_full with hcid
  set lanes1 := lanes1Of lanes cid with hlanes1
  set nl := nodeLaneOf lanes cid with hnl0
  set M := lanes1.set nl primary with hM
  have hMlen : M.length = lanes1.length := List.length_set _ _ _
  have hlanes2 : lanes2Of es lanes entry = M.take (nl + 1) ++ others ++ M.drop (nl + 1) := by
    unfold lanes2Of updateLanesForParents
    rw [hpo]
    exact insertParents_eq others (nl + 1) M (by omega)
  have hl2len : (lanes2Of es lanes entry).length = lanes1.length + others.length := by
    rw [hlanes2, List.length_append, List.length_append, List.length_take,
      List.length_drop, hMlen]
    omega
  have htklen : (M.take (nl + 1)).length = nl + 1 := by
    rw [List.length_take]
    omega
  have hMgetD : ∀ q, q < lanes1.length → q ≠ nl → M.getD q "" = lanes1.getD q "" := by
    intro q hq hne
    rw [List.getD_eq_getElem _ _ (by rw [hMlen]; exact hq),
      List.getElem_set_ne (fun hc => hne hc.symm), List.getD_eq_getElem _ _ hq]
  have hMnl : M.getD nl "" = primary := by
    rw [List.getD_eq_getElem _ _ (by rw [hMlen]; exact hnl), List.getElem_set_self]
  have hocc : ∀ q, q < (lanes2Of es lanes entry).length →
      ((lanes2Of es lanes entry).getD q "" = cid ↔
        q ∈ (dupsOf lanes cid).map (· + splitCountOf es entry)) := by
    intro q hq
    rw [hl2len] at hq
    rw [hlanes2]
    by_cases h1 : q < nl + 1
    · -- prefix zone: the set/minimality facts rule out `cid`
      rw [List.getD_append _ _ _ _ (by rw [List.length_append, htklen]; omega),
        List.getD_append _ _ _ _ (by rw [htklen]; omega)]
      have hvM : (M.take (nl + 1)).getD q "" = M.getD q "" := by
        rw [List.getD_eq_getElem _ _ (by rw [htklen]; omega), List.getElem_take,
          List.getD_eq_getElem M "" (by rw [hMlen]; omega)]
      rw [hvM]
      constructor
      · intro hv
        exfalso
        by_cases hqnl : q = nl
        · rw [hqnl, hMnl] at hv
          exact hprim hv
        · rw [hMgetD q (by omega) hqnl] at hv
          exact hmin q (by omega) hv
      · intro hm
        exfalso
        rw [List.mem_map] at hm
        obtain ⟨d, hd, hdq⟩ := hm
        rw [mem_dupsOf] at hd
        rw [← hlanes1, ← hnl0] at hd
        replace hdq : d + splitCountOf es entry = q := hdq
        rw [hsplit] at hdq
        omega
    · by_cases h2 : q < nl + 1 + others.length
      · -- inserted-parents zone: merge parents are never the commit id
        rw [List.getD_append _ _ _ _ (by rw [List.length_append, htklen]; omega),
          List.getD_append_right _ _ _ _ (by rw [htklen]; omega), htklen]
        constructor
        · intro hv
          exfalso
          have hai : q - (nl + 1) < others.length := by omega
          have hmem : others.getD (q - (nl + 1)) "" ∈ others := by
            rw [List.getD_eq_getElem _ _ hai]
            exact List.getElem_mem _
          exact hoth _ hmem hv
        · intro hm
          exfalso
          rw [List.mem_map] at hm
          obtain ⟨d, hd, hdq⟩ := hm
          rw [mem_dupsOf] at hd
          rw [← hlanes1, ← hnl0] at hd
          replace hdq : d + splitCountOf es entry = q := hdq
          rw [hsplit] at hdq
          omega
      · -- suffix zone: exactly the shifted duplicate positions
        rw [List.getD_append_right _ _ _ _
          (by rw [List.length_append, htklen]; omega)]
        rw [List.length_append, htklen]
        have hdr : q - (nl + 1 + others.length) < (M.drop (nl + 1)).length := by
          rw [List.length_drop, hMlen]
          omega
        rw [List.getD_eq_getElem _ _ hdr, List.getElem_drop,
          ← List.getD_eq_getElem M "" (by rw [hMlen]; omega)]
        rw [show nl + 1 + (q - (nl + 1 + others.length)) = q - others.length by omega]
        rw [hMgetD _ (by omega) (by omega)]
        constructor
        · intro hv
          rw [List.mem_map]
          refine ⟨q - others.length, ?_, ?_⟩
          · rw [mem_dupsOf, ← hlanes1, ← hnl0]
            exact ⟨by omega, by omega, hv⟩
          · show q - others.length + splitCountOf es entry = q
            rw [hsplit]
            omega
        · intro hm
          rw [List.mem_map] at hm
          obtain ⟨d, hd, hdq⟩ := hm
          rw [mem_dupsOf] at hd
          rw [← hlanes1, ← hnl0] at hd
          obtain ⟨hd1, hd2, hd3⟩ := hd
          replace hdq : d + splitCountOf es entry = q := hdq
          rw [hsplit] at hdq
          rw [show q - others.length = d by omega]
          exact hd3
  have hSnodup : ((dupsOf lanes cid).map (· + splitCountOf es entry)).Nodup := by
    apply List.Nodup.map
    · intro a b hab
      replace hab : a + splitCountOf es entry = b + splitCountOf es entry := hab
      omega
    · exact (dupsOf_pairwise lanes cid).imp (fun h => Nat.ne_of_lt h)
  have hconv_perm : (convergeOf es lanes entry).Perm
      ((dupsOf lanes cid).map (· + splitCountOf es entry)) := sortNat_perm _
  have hconv_nodup : (convergeOf es lanes entry).Nodup :=
    hconv_perm.nodup_iff.mpr hSnodup
  have hconv_sorted : (convergeOf es lanes entry).Pairwise (· < ·) := by
    have hle : (convergeOf es lanes entry).Pairwise (· ≤ ·) := sortNat_sorted _
    have hne : (convergeOf es lanes entry).Pairwise (· ≠ ·) := hconv_nodup
    exact (hle.and hne).imp (fun h => lt_of_le_of_ne h.1 h.2)
  show cid ∉ lanes3Of es lanes entry
  unfold lanes3Of removeConverged
  apply eraseFold_not_mem
  · rw [List.pairwise_reverse]
    exact hconv_sorted
  · intro d hd
    rw [List.mem_reverse] at hd
    have hdS := hconv_perm.mem_iff.mp hd
    rw [List.mem_map] at hdS
    obtain ⟨x, hx, hxe⟩ := hdS
    rw [mem_dupsOf] at hx
    rw [← hlanes1, ← hnl0] at hx
    replace hxe : x + splitCountOf es entry = d := hxe
    rw [hsplit] at hxe
    rw [hl2len]
    omega
  · intro q hq
    rw [hocc q hq, List.mem_reverse, hconv_perm.mem_iff]


/-- Witness for the amended C4 theorem at a concrete input: a batch
`[C -> R, R]` processed against a lane table `["C", "X", "C"]` that carries a
duplicate of the node id; the resulting lanes hold no occurrence of `"C"`. -/
theorem C4_amended_witness :
    (parentsOf [mkEntry "C" ["R"], mkEntry "R" []] (mkEntry "C" ["R"]) ≠ [] ∧
      (mkEntry "C" ["R"]).commit_id_full ∉ (mkEntry "C" ["R"]).parent_commit_ids) ∧
    (mkEntry "C" ["R"]).commit_id_full ∉
      (graphStep [mkEntry "C" ["R"], mkEntry "R" []] ["C", "X", "C"]
        (mkEntry "C" ["R"])).1 :=
  ⟨⟨by decide, by decide⟩,
    C4_amended [mkEntry "C" ["R"], mkEntry "R" []] ["C", "X", "C"]
      (mkEntry "C" ["R"]) (by decide) (by decide)⟩


/-! ## Idempotence of the sequencer on distinct-id batches (claim C9) -/

theorem remEdges_mono (es : List LogEntry) {E E' : List Nat}
    (h : ∀ x ∈ E', x ∈ E) (j : Nat) :
    remEdges es E j ≤ remEdges es E' j := by
  unfold remEdges
  apply Finset.sum_le_sum_of_subset
  intro i hi
  rw [Finset.mem_filter, Finset.mem_range] at hi ⊢
  exact ⟨hi.1, fun hc => hi.2 (h i hc)⟩

theorem range_filter_not_mem : ∀ (n m : Nat), m ≤ n →
    List.range m ++ (List.range n).filter (fun i => decide (i ∉ List.range m))
      = List.range n := by
  intro n
  induction n with
  | zero =>
    intro m h
    obtain rfl : m = 0 := by omega
    rfl
  | succ n ih =>
    intro m h
    by_cases hm : m = n + 1
    · subst hm
      rw [List.filter_eq_nil_iff.mpr ?_, List.append_nil]
      intro a ha
      simp only [decide_eq_true_eq, Decidable.not_not]
      exact ha
    · have hmn : m ≤ n := by omega
      rw [List.range_succ, List.filter_append]
      have hn : List.filter (fun i => decide (i ∉ List.range m)) [n] = [n] := by
        rw [List.filter_cons_of_pos]
        · rfl
        · simp only [decide_eq_true_eq]
          rw [List.mem_range]
          omega
      rw [hn, ← List.append_assoc, ih m hmn, ← List.range_succ]

theorem permIdx_length (es : List LogEntry) : (permIdx es).length = es.length :=
  ((perm_range_parts es).length_eq.symm).trans (List.length_range _)

theorem permIdx_nodup (es : List LogEntry) : (permIdx es).Nodup :=
  ((perm_range_parts es).nodup_iff).mp (List.nodup_range _)

theorem permIdx_lt (es : List LogEntry) :
    ∀ a, a < es.length → (permIdx es).getD a 0 < es.length := by
  intro a ha
  have hmem : (permIdx es).getD a 0 ∈ permIdx es := by
    rw [List.getD_eq_getElem _ _ (by rw [permIdx_length]; exact ha)]
    exact List.getElem_mem _
  exact List.mem_range.mp ((perm_range_parts es).mem_iff.mpr hmem)

theorem emitted_left_length (es : List LogEntry) :
    (emittedOf es).length + (leftIdx es).length = es.length := by
  have h := permIdx_length es
  rw [permIdx, List.length_append] at h
  exact h

theorem reorder_getD (es : List LogEntry) {a : Nat} (ha : a < es.length) :
    (reorder_entries_for_graph es).getD a default
      = es.getD ((permIdx es).getD a 0) default := by
  rw [reorder_eq_parts,
    List.getD_eq_getElem _ _ (by rw [List.length_map, permIdx_length]; exact ha),
    List.getElem_map, List.getD_eq_getElem (permIdx es) 0 (by rw [permIdx_length]; exact ha)]

theorem permIdx_getD_lt (es : List LogEntry) {a : Nat}
    (ha : a < (emittedOf es).length) :
    (permIdx es).getD a 0 = (emittedOf es).getD a 0 := by
  unfold permIdx
  rw [List.getD_append _ _ _ _ ha]

theorem permIdx_getD_ge (es : List LogEntry) {a : Nat}
    (ha : (emittedOf es).length ≤ a) :
    (permIdx es).getD a 0 = (leftIdx es).getD (a - (emittedOf es).length) 0 := by
  unfold permIdx
  rw [List.getD_append_right _ _ _ _ ha]

theorem leftIdx_spec (es : List LogEntry) {i : Nat} (h : i ∈ leftIdx es) :
    i < es.length ∧ i ∉ (runReorder es).emitted := by
  unfold leftIdx at h
  have h2 := List.mem_filter.mp h
  rw [List.mem_range] at h2
  refine ⟨h2.1, ?_⟩
  have h3 := h2.2
  rw [decide_eq_true_eq] at h3
  exact h3

theorem permIdx_take_mem (es : List LogEntry) {a k : Nat}
    (ha : a < es.length) (hk : k ≤ (emittedOf es).length) :
    ((permIdx es).getD a 0 ∈ (emittedOf es).take k ↔ a < k) := by
  have hml := emitted_left_length es
  constructor
  · intro hmem
    by_contra hc
    push_neg at hc
    by_cases ham : a < (emittedOf es).length
    · rw [permIdx_getD_lt es ham, List.getD_eq_getElem _ _ ham] at hmem
      have := nodup_take_pos (runReorder_inv es).em_nodup ham hmem
      omega
    · push_neg at ham
      rw [permIdx_getD_ge es ham] at hmem
      have hbl : a - (emittedOf es).length < (leftIdx es).length := by omega
      have hmemL : (leftIdx es).getD (a - (emittedOf es).length) 0 ∈ leftIdx es := by
        rw [List.getD_eq_getElem _ _ hbl]
        exact List.getElem_mem _
      exact (leftIdx_spec es hmemL).2 ((List.take_sublist k _).subset hmem)
  · intro hak
    have ham : a < (emittedOf es).length := by omega
    rw [permIdx_getD_lt es ham, List.getD_eq_getElem _ _ ham,
      List.mem_take_iff_getElem]
    exact ⟨a, lt_min hak ham, rfl⟩

theorem reorder_ids_nodup (es : List LogEntry)
    (hnd : (es.map (·.commit_id_full)).Nodup) :
    ((reorder_entries_for_graph es).map (·.commit_id_full)).Nodup :=
  (((reorder_perm es).map (·.commit_id_full)).nodup_iff).mpr hnd

theorem idToIdx_reorder (es : List LogEntry)
    (hnd : (es.map (·.commit_id_full)).Nodup) (p : String) {b : Nat}
    (hb : b < es.length) :
    (idToIdx (reorder_entries_for_graph es) p = some b ↔
      idToIdx es p = some ((permIdx es).getD b 0)) := by
  rw [idToIdx_iff_of_nodup (reorder_ids_nodup es hnd), idToIdx_iff_of_nodup hnd,
    reorder_length]
  constructor
  · rintro ⟨hb', hid⟩
    refine ⟨permIdx_lt es b hb, ?_⟩
    rw [← reorder_getD es hb]
    exact hid
  · rintro ⟨hσ, hid⟩
    refine ⟨hb, ?_⟩
    rw [reorder_getD es hb]
    exact hid

theorem edgeTo_reorder (es : List LogEntry)
    (hnd : (es.map (·.commit_id_full)).Nodup) {a b : Nat}
    (ha : a < es.length) (hb : b < es.length) :
    edgeTo (reorder_entries_for_graph es) a b
      = edgeTo es ((permIdx es).getD a 0) ((permIdx es).getD b 0) := by
  unfold edgeTo
  rw [reorder_getD es ha]
  apply List.countP_congr
  intro q hq
  simp only [decide_eq_true_eq]
  exact idToIdx_reorder es hnd q hb

theorem wc_reorder (es : List LogEntry) {b : Nat} (hb : b < es.length) :
    ((reorder_entries_for_graph es).map (·.is_working_copy)).getD b false
      = (es.map (·.is_working_copy)).getD ((permIdx es).getD b 0) false := by
  rw [wcs_getD _ (by rw [reorder_length]; exact hb), wcs_getD _ (permIdx_lt es b hb),
    reorder_getD es hb]

theorem remEdges_reorder (es : List LogEntry)
    (hnd : (es.map (·.commit_id_full)).Nodup) {k b : Nat}
    (hk : k ≤ (emittedOf es).length) (hb : b < es.length) :
    remEdges (reorder_entries_for_graph es) (List.range k) b
      = remEdges es ((emittedOf es).take k) ((permIdx es).getD b 0) := by
  unfold remEdges
  rw [reorder_length]
  refine Finset.sum_bij (fun a _ => (permIdx es).getD a 0) ?_ ?_ ?_ ?_
  · intro a ha
    rw [Finset.mem_filter, Finset.mem_range] at ha ⊢
    refine ⟨permIdx_lt es a ha.1, ?_⟩
    intro hc
    exact ha.2 (List.mem_range.mpr ((permIdx_take_mem es ha.1 hk).mp hc))
  · intro a1 h1 a2 h2 heq
    rw [Finset.mem_filter, Finset.mem_range] at h1 h2
    have hl1 : a1 < (permIdx es).length := by rw [permIdx_length]; exact h1.1
    have hl2 : a2 < (permIdx es).length := by rw [permIdx_length]; exact h2.1
    replace heq : (permIdx es).getD a1 0 = (permIdx es).getD a2 0 := heq
    rw [List.getD_eq_getElem _ _ hl1, List.getD_eq_getElem _ _ hl2] at heq
    exact ((permIdx_nodup es).getElem_inj_iff).mp heq
  · intro i hi
    rw [Finset.mem_filter, Finset.mem_range] at hi
    have hiσ : i ∈ permIdx es :=
      ((perm_range_parts es).mem_iff).mp (List.mem_range.mpr hi.1)
    obtain ⟨a, hal, hae⟩ := List.getElem_of_mem hiσ
    have han : a < es.length := by rw [permIdx_length] at hal; exact hal
    have haD : (permIdx es).getD a 0 = i := by
      rw [List.getD_eq_getElem _ _ hal]; exact hae
    refine ⟨a, ?_, haD⟩
    rw [Finset.mem_filter, Finset.mem_range]
    refine ⟨han, ?_⟩
    intro hc
    rw [List.mem_range] at hc
    have hmem := (permIdx_take_mem es han hk).mpr hc
    rw [haD] at hmem
    exact hi.2 hmem
  · intro a ha
    rw [Finset.mem_filter, Finset.mem_range] at ha
    exact edgeTo_reorder es hnd ha.1 hb

theorem emitted_take_ready (es : List LogEntry) {k : Nat}
    (hk : k < (emittedOf es).length) :
    remEdges es ((emittedOf es).take k) ((emittedOf es).getD k 0) = 0 := by
  unfold remEdges
  rw [Finset.sum_eq_zero_iff]
  intro i hi
  rw [Finset.mem_filter, Finset.mem_range] at hi
  by_contra hc
  have hpos : 0 < edgeTo es i ((emittedOf es).getD k 0) := by omega
  exact hi.2 ((runReorder_inv es).trace_children k hk i hi.1 hpos)

theorem leftover_never_ready (es : List LogEntry)
    (hnd : (es.map (·.commit_id_full)).Nodup) {k b : Nat}
    (hk : k ≤ (emittedOf es).length) (hb : (emittedOf es).length ≤ b)
    (hbn : b < es.length) :
    0 < remEdges (reorder_entries_for_graph es) (List.range k) b := by
  rw [remEdges_reorder es hnd hk hbn, permIdx_getD_ge es hb]
  have hml := emitted_left_length es
  have hbl : b - (emittedOf es).length < (leftIdx es).length := by omega
  have hmem : (leftIdx es).getD (b - (emittedOf es).length) 0 ∈ leftIdx es := by
    rw [List.getD_eq_getElem _ _ hbl]
    exact List.getElem_mem _
  obtain ⟨hlt, hnem⟩ := leftIdx_spec es hmem
  have hstuck := runReorder_stuck es _ hlt hnem
  have hmono := @remEdges_mono es ((runReorder es).emitted) ((emittedOf es).take k)
    (fun x hx => (List.take_sublist k _).subset hx)
    ((leftIdx es).getD (b - (emittedOf es).length) 0)
  omega

theorem replay_ready (es : List LogEntry)
    (hnd : (es.map (·.commit_id_full)).Nodup) {k : Nat}
    (hk : k < (emittedOf es).length) :
    remEdges (reorder_entries_for_graph es) (List.range k) k = 0 := by
  have hml := emitted_left_length es
  rw [remEdges_reorder es hnd (by omega) (by omega), permIdx_getD_lt es hk]
  exact emitted_take_ready es hk

theorem ready_wc_propagate (es : List LogEntry)
    (hnd : (es.map (·.commit_id_full)).Nodup) {k b : Nat}
    (hk : k < (emittedOf es).length) (hkb : k < b) (hb : b < (emittedOf es).length)
    (hready : remEdges (reorder_entries_for_graph es) (List.range k) b = 0)
    (hwcb : ((reorder_entries_for_graph es).map (·.is_working_copy)).getD b false
      = true) :
    ((reorder_entries_for_graph es).map (·.is_working_copy)).getD k false = true := by
  have inv := runReorder_inv es
  have hml := emitted_left_length es
  have hbn : b < es.length := by omega
  have hkn : k < es.length := by omega
  rw [remEdges_reorder es hnd (by omega) hbn, permIdx_getD_lt es hb] at hready
  have hEb_lt : (emittedOf es).getD b 0 < es.length := by
    apply inv.em_lt
    rw [List.getD_eq_getElem _ _ hb]
    exact List.getElem_mem _
  have hnotin : (emittedOf es).getD b 0 ∉ (emittedOf es).take k := by
    rw [List.getD_eq_getElem _ _ hb]
    intro hc
    have := nodup_take_pos inv.em_nodup hb hc
    omega
  have htm := inv.trace_max k hk _ hEb_lt hnotin hready
  rw [wc_reorder es hbn, permIdx_getD_lt es hb] at hwcb
  rw [wc_reorder es hkn, permIdx_getD_lt es hk]
  by_contra hc
  rw [Bool.not_eq_true] at hc
  apply htm
  exact Or.inl ⟨hc, hwcb⟩

theorem replay_aux (es : List LogEntry)
    (hnd : (es.map (·.commit_id_full)).Nodup) :
    ∀ (fuel : Nat) (st : RState) (k : Nat),
      Inv (reorder_entries_for_graph es) st →
      st.emitted = List.range k → k ≤ (emittedOf es).length →
      ∃ m, k ≤ m ∧ m ≤ (emittedOf es).length ∧
        (stepFuel (reorder_entries_for_graph es)
          ((reorder_entries_for_graph es).map (·.is_working_copy)) fuel st).emitted
          = List.range m := by
  intro fuel
  induction fuel with
  | zero =>
    intro st k inv hem hk
    exact ⟨k, Nat.le_refl _, hk, by simpa [stepFuel] using hem⟩
  | succ fuel ih =>
    intro st k inv hem hk
    cases hpop : popMax st.heap with
    | none =>
      rw [stepFuel_succ_none _ _ _ _ hpop]
      exact ⟨k, Nat.le_refl _, hk, hem⟩
    | some mr =>
      rcases mr with ⟨⟨p, idx⟩, rest⟩
      obtain ⟨hlt, hkey, hemx, hready⟩ := inv.heap_mem _ (popMax_mem hpop)
      replace hlt : idx < (reorder_entries_for_graph es).length := hlt
      replace hkey : p
          = mkPrio ((reorder_entries_for_graph es).map (·.is_working_copy)) idx := hkey
      replace hemx : idx ∉ st.emitted := hemx
      replace hready : remEdges (reorder_entries_for_graph es) st.emitted idx = 0 :=
        hready
      have heo : st.entriesOpt.getD idx none
          = some ((reorder_entries_for_graph es).getD idx default) := by
        rw [inv.eo_eq idx hlt, if_neg hemx]
      rw [stepFuel_succ_emit _ _ fuel st p idx rest _ hpop hemx heo]
      have hlen_o : (reorder_entries_for_graph es).length = es.length :=
        reorder_length es
      have hml := emitted_left_length es
      have hreadyk : remEdges (reorder_entries_for_graph es) (List.range k) idx = 0 := by
        rw [← hem]
        exact hready
      have hemk : idx ∉ List.range k := by
        rw [← hem]
        exact hemx
      have hidxk : k ≤ idx := by
        by_contra hc
        push_neg at hc
        exact hemk (List.mem_range.mpr hc)
      have hidxm : idx < (emittedOf es).length := by
        by_contra hc
        push_neg at hc
        have hpos := leftover_never_ready es hnd hk hc (by omega)
        omega
      have hkm : k < (emittedOf es).length := by omega
      have hidx_eq : idx = k := by
        by_contra hne
        have hkb : k < idx := by omega
        have hkmem : (mkPrio ((reorder_entries_for_graph es).map (·.is_working_copy)) k, k)
            ∈ st.heap := by
          apply inv.heap_comp k (by omega)
          · rw [hem]
            exact fun hc => absurd (List.mem_range.mp hc) (Nat.lt_irrefl k)
          · rw [hem]
            exact replay_ready es hnd hkm
        apply popMax_not_lt hpop _ hkmem
        refine Or.inl ?_
        rw [hkey]
        by_cases hwcidx :
            ((reorder_entries_for_graph es).map (·.is_working_copy)).getD idx false = true
        · have hwck := ready_wc_propagate es hnd hkm hkb hidxm hreadyk hwcidx
          refine Or.inr ⟨?_, ?_⟩
          · show ((reorder_entries_for_graph es).map (·.is_working_copy)).getD idx false
                = ((reorder_entries_for_graph es).map (·.is_working_copy)).getD k false
            rw [hwcidx, hwck]
          · show -(idx : Int) < -(k : Int)
            omega
        · rw [Bool.not_eq_true] at hwcidx
          by_cases hwck :
              ((reorder_entries_for_graph es).map (·.is_working_copy)).getD k false = true
          · exact Or.inl ⟨hwcidx, hwck⟩
          · rw [Bool.not_eq_true] at hwck
            refine Or.inr ⟨?_, ?_⟩
            · show ((reorder_entries_for_graph es).map (·.is_working_copy)).getD idx false
                  = ((reorder_entries_for_graph es).map (·.is_working_copy)).getD k false
              rw [hwcidx, hwck]
            · show -(idx : Int) < -(k : Int)
              omega
      have hinv' := emitState_inv inv hpop heo
      have hem' : (emitState (reorder_entries_for_graph es)
          ((reorder_entries_for_graph es).map (·.is_working_copy)) st idx rest
          ((reorder_entries_for_graph es).getD idx default)).emitted
          = List.range (k + 1) := by
        rw [emitState_emitted, hem, hidx_eq, List.range_succ]
      obtain ⟨m, h1, h2, h3⟩ := ih _ (k + 1) hinv' hem' (by omega)
      exact ⟨m, by omega, h2, h3⟩

theorem runReorder_reorder_emitted (es : List LogEntry)
    (hnd : (es.map (·.commit_id_full)).Nodup) :
    (runReorder (reorder_entries_for_graph es)).emitted
      = List.range (emittedOf es).length := by
  obtain ⟨m, -, hkm, hem⟩ := replay_aux es hnd
    ((initState (reorder_entries_for_graph es)).counts.sum
      + (initState (reorder_entries_for_graph es)).heap.length)
    (initState (reorder_entries_for_graph es)) 0
    (initState_inv _) rfl (Nat.zero_le _)
  have hrun : (runReorder (reorder_entries_for_graph es)).emitted = List.range m := by
    unfold runReorder
    exact hem
  have hml := emitted_left_length es
  have hmm : m = (emittedOf es).length := by
    by_contra hne
    have hmlt : m < (emittedOf es).length := by omega
    have hmem := (runReorder_inv (reorder_entries_for_graph es)).heap_comp m
      (by rw [reorder_length]; omega)
      (by rw [hrun]; exact fun hc => absurd (List.mem_range.mp hc) (Nat.lt_irrefl m))
      (by rw [hrun]; exact replay_ready es hnd hmlt)
    rw [runReorder_heap_nil] at hmem
    cases hmem
  rw [hrun, hmm]

/-- C9 (amended): on batches whose commit ids are pairwise distinct, the
sequencer is idempotent — re-sequencing its own output returns that output
unchanged.  (The unrestricted claim of the spec is refuted by
`C9_counterexample`: with a duplicated id the second pass reorders the
entries again.) -/
theorem C9_amended (records : List LogEntry)
    (hnd : (records.map (·.commit_id_full)).Nodup) :
    reorder_entries_for_graph (reorder_entries_for_graph records)
      = reorder_entries_for_graph records := by
  have hrange := runReorder_reorder_emitted records hnd
  have hml := emitted_left_length records
  have hm : (emittedOf records).length ≤ (reorder_entries_for_graph records).length := by
    rw [reorder_length]
    omega
  have hperm : permIdx (reorder_entries_for_graph records)
      = List.range (reorder_entries_for_graph records).length := by
    unfold permIdx emittedOf leftIdx
    rw [hrange]
    exact range_filter_not_mem _ _ hm
  rw [reorder_eq_parts (reorder_entries_for_graph records), hperm, map_getD_range]

/-- Witness for the amended C9 theorem: the branch-and-converge batch has
pairwise-distinct ids and re-sequencing its sequenced form is the
identity. -/
theorem C9_amended_witness :
    (branchInput.map (·.commit_id_full)).Nodup ∧
    reorder_entries_for_graph (reorder_entries_for_graph branchInput)
      = reorder_entries_for_graph branchInput :=
  ⟨by decide, C9_amended branchInput (by decide)⟩

end Xorcist
